import Mathlib

/-!
Shallow embedding of the time-series reconciliation and caching layer of the
`the_eye_of_AO` dashboard (source files `src/charts.js`, `src/unnamed/part_000`
= the API/cache module, `src/unnamed/part_001` = a second copy of the chart
module).

Conventions of the embedding:
* Timestamps are `Nat` milliseconds since the Unix epoch, exactly the numeric
  value JavaScript's `Date.getTime()` yields for the nonnegative instants this
  dashboard handles.  A JavaScript falsy `timestamp` field on a numeric
  timestamp is exactly the value `0`.
* A possibly-null array slot is `Option DataPoint`; a possibly-null array is
  `Option (List (Option DataPoint))`.
* A JavaScript `Map` is an insertion-ordered association list; `Map.set`
  replaces in place when the key exists and appends otherwise.
* `Array.prototype.sort` with the numeric comparator used by the source is a
  stable sort by timestamp; it is embedded as `List.insertionSort`, which is
  stable with respect to the `a.timestamp ≤ b.timestamp` relation.
* Asynchronous network outcomes are an explicit `FetchOutcome` argument, so
  the data-flow of the batch fetch is a pure function of the outcomes.
-/

namespace EyeOfAO

/-- Uniform data point produced by the source adapters: `{ timestamp, count }`. -/
structure DataPoint where
  timestamp : Nat
  count : Nat
deriving DecidableEq, Repr

/-- Milliseconds in one UTC day, the constant `86400000` of the source. -/
def msPerDay : Nat := 86400000

/-- UTC calendar day of a millisecond timestamp: the day number since the
epoch.  Two timestamps produce the same `YYYY-MM-DD` UTC key string in
`removeDuplicateDates` exactly when they have the same `dayKey`. -/
def dayKey (ts : Nat) : Nat := ts / msPerDay

/-- The `isMidnight` test of `removeDuplicateDates`: UTC hours, minutes and
seconds are all zero, i.e. the millisecond offset into the day is below one
second (the source does not inspect milliseconds). -/
def isMidnightTs (ts : Nat) : Bool := ts % msPerDay < 1000

/-- Sunday-aligned UTC week start used for weekly series: the source takes
`date.getUTCDate() - date.getUTCDay()` and zeroes the time of day.  The day
number of the epoch (1970-01-01) was a Thursday, so `getUTCDay` of day `d` is
`(d + 4) % 7`.  The `Nat` subtraction truncates at 0 for the first partial
week of 1970 (whose JavaScript week start falls in 1969); elsewhere it agrees
with the source exactly. -/
def weekStartKey (ts : Nat) : Nat := dayKey ts - (dayKey ts + 4) % 7

/-- Deduplication bucket of a non-today point: week start for weekly series,
calendar day otherwise (`removeDuplicateDates`, the `seen` map keys). -/
def bucketKey (isWeekly : Bool) (ts : Nat) : Nat :=
  if isWeekly then weekStartKey ts else dayKey ts

/-- Lookup in an insertion-ordered association list (JavaScript `Map.get`). -/
def assocLookup {κ β : Type} [DecidableEq κ] (k : κ) : List (κ × β) → Option β
  | [] => none
  | (k', v) :: rest => if k' = k then some v else assocLookup k rest

/-- Insertion into an insertion-ordered association list (JavaScript
`Map.set`): an existing key keeps its position and gets the new value, a new
key is appended at the end. -/
def assocSet {κ β : Type} [DecidableEq κ] (k : κ) (v : β) :
    List (κ × β) → List (κ × β)
  | [] => [(k, v)]
  | (k', v') :: rest =>
    if k' = k then (k, v) :: rest else (k', v') :: assocSet k v rest

/-- One step of the loop over today's entries in `removeDuplicateDates`: a
midnight entry overwrites `earliestToday`, a non-midnight entry replaces
`latestToday` when strictly later (`new Date(item.timestamp) >
new Date(latestToday.timestamp)`). -/
def todayStep (acc : Option DataPoint × Option DataPoint) (item : DataPoint) :
    Option DataPoint × Option DataPoint :=
  if isMidnightTs item.timestamp then (some item, acc.2)
  else
    match acc.2 with
    | none => (acc.1, some item)
    | some prev =>
      if prev.timestamp < item.timestamp then (acc.1, some item) else acc

/-- The `(earliestToday, latestToday)` pair computed from today's entries. -/
def todaySelect (l : List DataPoint) : Option DataPoint × Option DataPoint :=
  l.foldl todayStep (none, none)

/-- One step of the loop filling the `seen` map of `removeDuplicateDates`: a
point replaces the held point of its bucket when the bucket is unseen or the
held point is strictly earlier. -/
def seenStep (isWeekly : Bool) (seen : List (Nat × DataPoint))
    (item : DataPoint) : List (Nat × DataPoint) :=
  match assocLookup (bucketKey isWeekly item.timestamp) seen with
  | none => assocSet (bucketKey isWeekly item.timestamp) item seen
  | some prev =>
    if prev.timestamp < item.timestamp then
      assocSet (bucketKey isWeekly item.timestamp) item seen
    else seen

/-- The `seen` map built from the non-today entries. -/
def dedupOthers (isWeekly : Bool) (l : List DataPoint) :
    List (Nat × DataPoint) :=
  l.foldl (seenStep isWeekly) []

/-- The per-item guard of `removeDuplicateDates`
(`if (!item || !item.timestamp) return;`): null slots and points with a falsy
(zero) timestamp are dropped before any other processing. -/
def validPoints (data : List (Option DataPoint)) : List DataPoint :=
  data.filterMap fun item =>
    match item with
    | none => none
    | some p => if p.timestamp = 0 then none else some p

/-- Comparator of the final chronological sort
(`(a, b) => new Date(a.timestamp) - new Date(b.timestamp)`). -/
def byTimestamp (a b : DataPoint) : Prop := a.timestamp ≤ b.timestamp

instance : DecidableRel byTimestamp := fun a b => Nat.decLe a.timestamp b.timestamp

instance : IsTotal DataPoint byTimestamp :=
  ⟨fun a b => Nat.le_total a.timestamp b.timestamp⟩

instance : IsTrans DataPoint byTimestamp := ⟨fun _ _ _ h h' => Nat.le_trans h h'⟩

/-- The entries of the kept input points whose UTC calendar day is today's
(`dateKey === todayUTC` in the source). -/
def todayEntries (now : Nat) (d : List (Option DataPoint)) : List DataPoint :=
  (validPoints d).filter fun p => dayKey p.timestamp == dayKey now

/-- The kept input points on any other UTC calendar day. -/
def otherEntries (now : Nat) (d : List (Option DataPoint)) : List DataPoint :=
  (validPoints d).filter fun p => !(dayKey p.timestamp == dayKey now)

/-- The `result` array of `removeDuplicateDates` before the final sort: the
values of the `seen` map, then `earliestToday` and `latestToday` when
present. -/
def reconPool (isWeekly : Bool) (now : Nat) (d : List (Option DataPoint)) :
    List DataPoint :=
  (dedupOthers isWeekly (otherEntries now d)).map Prod.snd ++
    (todaySelect (todayEntries now d)).1.toList ++
    (todaySelect (todayEntries now d)).2.toList

/-- The temporal reconciler `removeDuplicateDates(data, isWeekly)` of
`src/charts.js` (identical in `src/unnamed/part_001`).  `now` is the
millisecond instant `new Date()` observes; today's UTC calendar day is
`dayKey now`.  A null (`none`) or empty array returns `[]`; otherwise the
points are split into today's entries and others, today keeps at most the
midnight snapshot and the latest non-midnight snapshot, other entries are
deduplicated per bucket keeping the latest, and the retained points are sorted
chronologically. -/
def removeDuplicateDates (data : Option (List (Option DataPoint)))
    (isWeekly : Bool) (now : Nat) : List DataPoint :=
  match data with
  | none => []
  | some d =>
    if d.length = 0 then [] else
      List.insertionSort byTimestamp (reconPool isWeekly now d)

/-- Strict version of the sort comparator, used to state uniqueness of the
sorted order. -/
def byTimestampStrict (a b : DataPoint) : Prop := a.timestamp < b.timestamp

instance : IsAntisymm DataPoint byTimestampStrict :=
  ⟨fun _ _ h h' => absurd h' (Nat.lt_asymm h)⟩

theorem assocLookup_eq_none_iff {κ β : Type} [DecidableEq κ] (k : κ)
    (l : List (κ × β)) : assocLookup k l = none ↔ k ∉ l.map Prod.fst := by
  induction l with
  | nil => simp [assocLookup]
  | cons e rest ih =>
    obtain ⟨k', v⟩ := e
    by_cases h : k' = k <;> simp [assocLookup, h, ih, Ne.symm]

theorem assocLookup_mem {κ β : Type} [DecidableEq κ] {k : κ}
    {l : List (κ × β)} {v : β} (h : assocLookup k l = some v) : (k, v) ∈ l := by
  induction l with
  | nil => simp [assocLookup] at h
  | cons e rest ih =>
    obtain ⟨k', v'⟩ := e
    by_cases hk : k' = k
    · subst hk
      simp [assocLookup] at h
      simp [h]
    · simp [assocLookup, hk] at h
      exact List.mem_cons_of_mem _ (ih h)

theorem mem_assocSet {κ β : Type} [DecidableEq κ] {k : κ} {v : β}
    {l : List (κ × β)} : ∀ e ∈ assocSet k v l, e = (k, v) ∨ e ∈ l := by
  induction l with
  | nil => simp [assocSet]
  | cons hd rest ih =>
    obtain ⟨k', v'⟩ := hd
    intro e he
    by_cases hk : k' = k
    · simp [assocSet, hk] at he
      rcases he with h | h
      · exact Or.inl h
      · exact Or.inr (List.mem_cons_of_mem _ h)
    · simp [assocSet, hk] at he
      rcases he with h | h
      · exact Or.inr (by simp [h])
      · rcases ih e h with h' | h'
        · exact Or.inl h'
        · exact Or.inr (List.mem_cons_of_mem _ h')

theorem assocSet_of_not_mem {κ β : Type} [DecidableEq κ] {k : κ} {v : β}
    {l : List (κ × β)} (h : k ∉ l.map Prod.fst) :
    assocSet k v l = l ++ [(k, v)] := by
  induction l with
  | nil => simp [assocSet]
  | cons hd rest ih =>
    obtain ⟨k', v'⟩ := hd
    simp only [List.map, List.mem_cons] at h
    push_neg at h
    simp [assocSet, Ne.symm h.1, ih h.2]

theorem assocSet_keys_of_mem {κ β : Type} [DecidableEq κ] {k : κ} (v : β)
    {l : List (κ × β)} (h : k ∈ l.map Prod.fst) :
    (assocSet k v l).map Prod.fst = l.map Prod.fst := by
  induction l with
  | nil => simp at h
  | cons hd rest ih =>
    obtain ⟨k', v'⟩ := hd
    by_cases hk : k' = k
    · simp [assocSet, hk]
    · simp only [List.map, List.mem_cons] at h
      rcases h with h | h
      · exact absurd h.symm hk
      · simp [assocSet, hk, ih h]

theorem assocSet_mem_self {κ β : Type} [DecidableEq κ] (k : κ) (v : β)
    (l : List (κ × β)) : (k, v) ∈ assocSet k v l := by
  induction l with
  | nil => simp [assocSet]
  | cons hd rest ih =>
    obtain ⟨k', v'⟩ := hd
    by_cases hk : k' = k <;> simp [assocSet, hk, ih]

theorem mem_assocSet_of_ne {κ β : Type} [DecidableEq κ] {k : κ} {v : β}
    {l : List (κ × β)} {e : κ × β} (he : e ∈ l) (hne : e.1 ≠ k) :
    e ∈ assocSet k v l := by
  induction l with
  | nil => simp at he
  | cons hd rest ih =>
    obtain ⟨k', v'⟩ := hd
    by_cases hk : k' = k
    · subst hk
      rcases List.mem_cons.1 he with h | h
      · exact absurd (by simp [h]) hne
      · simp [assocSet, List.mem_cons_of_mem _ h]
    · rcases List.mem_cons.1 he with h | h
      · simp [assocSet, hk, h]
      · simp [assocSet, hk]
        exact Or.inr (ih h)

theorem assoc_value_unique {κ β : Type} [DecidableEq κ] {l : List (κ × β)}
    (hnd : (l.map Prod.fst).Nodup) {k : κ} {v₁ v₂ : β}
    (h₁ : (k, v₁) ∈ l) (h₂ : (k, v₂) ∈ l) : v₁ = v₂ := by
  induction l with
  | nil => simp at h₁
  | cons hd rest ih =>
    obtain ⟨k', v'⟩ := hd
    simp only [List.map, List.nodup_cons] at hnd
    rcases List.mem_cons.1 h₁ with ha | ha <;> rcases List.mem_cons.1 h₂ with hb | hb
    · rw [Prod.mk.injEq] at ha hb
      rw [ha.2, hb.2]
    · rw [Prod.mk.injEq] at ha
      exact absurd (ha.1 ▸ List.mem_map_of_mem Prod.fst hb) (ha.1 ▸ hnd.1)
    · rw [Prod.mk.injEq] at hb
      exact absurd (hb.1 ▸ List.mem_map_of_mem Prod.fst ha) (hb.1 ▸ hnd.1)
    · exact ih hnd.2 ha hb

theorem assocSet_keys_nodup {κ β : Type} [DecidableEq κ] {k : κ} {v : β}
    {l : List (κ × β)} (hnd : (l.map Prod.fst).Nodup) :
    ((assocSet k v l).map Prod.fst).Nodup := by
  by_cases h : k ∈ l.map Prod.fst
  · rw [assocSet_keys_of_mem v h]; exact hnd
  · rw [assocSet_of_not_mem h]
    simp only [List.map_append, List.map]
    exact List.Nodup.append hnd (by simp) (by simpa [List.disjoint_right] using h)

theorem seenStep_eq_fresh {w : Bool} {seen : List (Nat × DataPoint)}
    {item : DataPoint}
    (hl : assocLookup (bucketKey w item.timestamp) seen = none) :
    seenStep w seen item = assocSet (bucketKey w item.timestamp) item seen := by
  simp [seenStep, hl]

theorem seenStep_eq_replace {w : Bool} {seen : List (Nat × DataPoint)}
    {item prev : DataPoint}
    (hl : assocLookup (bucketKey w item.timestamp) seen = some prev)
    (h : prev.timestamp < item.timestamp) :
    seenStep w seen item = assocSet (bucketKey w item.timestamp) item seen := by
  simp [seenStep, hl, h]

theorem seenStep_eq_keep {w : Bool} {seen : List (Nat × DataPoint)}
    {item prev : DataPoint}
    (hl : assocLookup (bucketKey w item.timestamp) seen = some prev)
    (h : ¬ prev.timestamp < item.timestamp) :
    seenStep w seen item = seen := by
  simp [seenStep, hl, h]

theorem seenStep_cases {w : Bool} (seen : List (Nat × DataPoint))
    (item : DataPoint) :
    seenStep w seen item = assocSet (bucketKey w item.timestamp) item seen ∨
      seenStep w seen item = seen := by
  cases hl : assocLookup (bucketKey w item.timestamp) seen with
  | none => exact Or.inl (seenStep_eq_fresh hl)
  | some prev =>
    by_cases h : prev.timestamp < item.timestamp
    · exact Or.inl (seenStep_eq_replace hl h)
    · exact Or.inr (seenStep_eq_keep hl h)

theorem seenStep_keys_nodup {w : Bool} {seen : List (Nat × DataPoint)}
    (hnd : (seen.map Prod.fst).Nodup) (item : DataPoint) :
    ((seenStep w seen item).map Prod.fst).Nodup := by
  rcases @seenStep_cases w seen item with h | h <;> rw [h]
  · exact assocSet_keys_nodup hnd
  · exact hnd

theorem seenStep_keyed {w : Bool} {seen : List (Nat × DataPoint)}
    (hk : ∀ e ∈ seen, bucketKey w e.2.timestamp = e.1) (item : DataPoint) :
    ∀ e ∈ seenStep w seen item, bucketKey w e.2.timestamp = e.1 := by
  intro e he
  rcases @seenStep_cases w seen item with h | h <;> rw [h] at he
  · rcases mem_assocSet e he with h' | h'
    · rw [h']
    · exact hk e h'
  · exact hk e he

theorem seenStep_snd_mem {w : Bool} {seen : List (Nat × DataPoint)}
    {item : DataPoint} : ∀ e ∈ seenStep w seen item, e.2 = item ∨ e ∈ seen := by
  intro e he
  rcases @seenStep_cases w seen item with h | h <;> rw [h] at he
  · rcases mem_assocSet e he with h' | h'
    · exact Or.inl (by rw [h'])
    · exact Or.inr h'
  · exact Or.inr he

theorem seenStep_mono {w : Bool} {seen : List (Nat × DataPoint)}
    (hnd : (seen.map Prod.fst).Nodup) (item : DataPoint) :
    ∀ e ∈ seen, ∃ e' ∈ seenStep w seen item,
      e'.1 = e.1 ∧ e.2.timestamp ≤ e'.2.timestamp := by
  intro e he
  cases hl : assocLookup (bucketKey w item.timestamp) seen with
  | none =>
    rw [seenStep_eq_fresh hl]
    refine ⟨e, ?_, rfl, Nat.le_refl _⟩
    have hne : e.1 ≠ bucketKey w item.timestamp := by
      intro h
      exact (assocLookup_eq_none_iff _ seen).1 hl
        (h ▸ List.mem_map_of_mem Prod.fst he)
    exact mem_assocSet_of_ne he hne
  | some prev =>
    by_cases h : prev.timestamp < item.timestamp
    · rw [seenStep_eq_replace hl h]
      by_cases hke : e.1 = bucketKey w item.timestamp
      · have hprev : (bucketKey w item.timestamp, prev) ∈ seen := assocLookup_mem hl
        have heq : e.2 = prev := by
          have he' : (e.1, e.2) ∈ seen := by simpa using he
          exact assoc_value_unique hnd (hke ▸ he') hprev
        exact ⟨(bucketKey w item.timestamp, item), assocSet_mem_self ..,
          by simp [hke], by simp [heq]; exact Nat.le_of_lt h⟩
      · exact ⟨e, mem_assocSet_of_ne he hke, rfl, Nat.le_refl _⟩
    · rw [seenStep_eq_keep hl h]
      exact ⟨e, he, rfl, Nat.le_refl _⟩

theorem dedupFold_keys_nodup {w : Bool} (l : List DataPoint) :
    ∀ seen : List (Nat × DataPoint), (seen.map Prod.fst).Nodup →
      ((l.foldl (seenStep w) seen).map Prod.fst).Nodup := by
  induction l with
  | nil => intro seen h; exact h
  | cons x rest ih =>
    intro seen h
    exact ih _ (seenStep_keys_nodup h x)

theorem dedupFold_keyed {w : Bool} (l : List DataPoint) :
    ∀ seen : List (Nat × DataPoint),
      (∀ e ∈ seen, bucketKey w e.2.timestamp = e.1) →
      ∀ e ∈ l.foldl (seenStep w) seen, bucketKey w e.2.timestamp = e.1 := by
  induction l with
  | nil => intro seen h; exact h
  | cons x rest ih =>
    intro seen h
    exact ih _ (seenStep_keyed h x)

theorem dedupFold_snd_mem {w : Bool} (l : List DataPoint) :
    ∀ seen : List (Nat × DataPoint),
      ∀ e ∈ l.foldl (seenStep w) seen, e.2 ∈ l ∨ e ∈ seen := by
  induction l with
  | nil => intro seen e he; exact Or.inr he
  | cons x rest ih =>
    intro seen e he
    rcases ih (seenStep w seen x) e he with h | h
    · exact Or.inl (List.mem_cons_of_mem _ h)
    · rcases seenStep_snd_mem e h with h' | h'
      · exact Or.inl (by simp [h'])
      · exact Or.inr h'

theorem dedupFold_mono {w : Bool} (l : List DataPoint) :
    ∀ seen : List (Nat × DataPoint), (seen.map Prod.fst).Nodup →
      ∀ e ∈ seen, ∃ e' ∈ l.foldl (seenStep w) seen,
        e'.1 = e.1 ∧ e.2.timestamp ≤ e'.2.timestamp := by
  induction l with
  | nil => intro seen _ e he; exact ⟨e, he, rfl, Nat.le_refl _⟩
  | cons x rest ih =>
    intro seen hnd e he
    obtain ⟨e', he', hk, hle⟩ := seenStep_mono hnd x e he
    obtain ⟨e'', he'', hk', hle'⟩ :=
      ih (seenStep w seen x) (seenStep_keys_nodup hnd x) e' he'
    exact ⟨e'', he'', hk' ▸ hk, Nat.le_trans hle hle'⟩

theorem dedupFold_max {w : Bool} (l : List DataPoint) :
    ∀ seen : List (Nat × DataPoint), (seen.map Prod.fst).Nodup →
      ∀ p ∈ l, ∃ e ∈ l.foldl (seenStep w) seen,
        e.1 = bucketKey w p.timestamp ∧ p.timestamp ≤ e.2.timestamp := by
  induction l with
  | nil => intro seen _ p hp; simp at hp
  | cons x rest ih =>
    intro seen hnd p hp
    rcases List.mem_cons.1 hp with h | h
    · subst h
      have hstep : ∃ e ∈ seenStep w seen p,
          e.1 = bucketKey w p.timestamp ∧ p.timestamp ≤ e.2.timestamp := by
        cases hl : assocLookup (bucketKey w p.timestamp) seen with
        | none =>
          rw [seenStep_eq_fresh hl]
          exact ⟨_, assocSet_mem_self .., rfl, Nat.le_refl _⟩
        | some prev =>
          by_cases hlt : prev.timestamp < p.timestamp
          · rw [seenStep_eq_replace hl hlt]
            exact ⟨_, assocSet_mem_self .., rfl, Nat.le_refl _⟩
          · rw [seenStep_eq_keep hl hlt]
            exact ⟨_, assocLookup_mem hl, rfl, Nat.le_of_not_lt hlt⟩
      obtain ⟨e, he, hk, hle⟩ := hstep
      obtain ⟨e', he', hk', hle'⟩ :=
        dedupFold_mono rest (seenStep w seen p) (seenStep_keys_nodup hnd p) e he
      exact ⟨e', he', hk' ▸ hk, Nat.le_trans hle hle'⟩
    · exact ih (seenStep w seen x) (seenStep_keys_nodup hnd x) p h

theorem dedupFold_append {w : Bool} (l : List DataPoint) :
    ∀ seen : List (Nat × DataPoint),
      (∀ p ∈ l, bucketKey w p.timestamp ∉ seen.map Prod.fst) →
      (l.map fun p => bucketKey w p.timestamp).Nodup →
      l.foldl (seenStep w) seen =
        seen ++ l.map fun p => (bucketKey w p.timestamp, p) := by
  induction l with
  | nil => intro seen _ _; simp
  | cons x rest ih =>
    intro seen hfresh hnd
    have hx : bucketKey w x.timestamp ∉ seen.map Prod.fst :=
      hfresh x (List.mem_cons_self ..)
    have hstep : seenStep w seen x = seen ++ [(bucketKey w x.timestamp, x)] := by
      rw [seenStep_eq_fresh ((assocLookup_eq_none_iff _ seen).2 hx)]
      exact assocSet_of_not_mem hx
    simp only [List.map, List.nodup_cons] at hnd
    have hrest : ∀ p ∈ rest,
        bucketKey w p.timestamp ∉ (seenStep w seen x).map Prod.fst := by
      intro p hp
      rw [hstep]
      simp only [List.map_append, List.mem_append, List.map]
      rintro (hs | hs)
      · exact hfresh p (List.mem_cons_of_mem _ hp) hs
      · simp at hs
        exact hnd.1 (hs ▸ List.mem_map_of_mem (fun q => bucketKey w q.timestamp) hp)
    calc (x :: rest).foldl (seenStep w) seen
        = rest.foldl (seenStep w) (seenStep w seen x) := rfl
      _ = seenStep w seen x ++ rest.map fun p => (bucketKey w p.timestamp, p) :=
          ih _ hrest hnd.2
      _ = seen ++ (x :: rest).map fun p => (bucketKey w p.timestamp, p) := by
          rw [hstep]; simp

theorem todayFold_fst (l : List DataPoint) :
    ∀ acc : Option DataPoint × Option DataPoint,
      (l.foldl todayStep acc).1 = acc.1 ∨
        ∃ p ∈ l, isMidnightTs p.timestamp = true ∧
          (l.foldl todayStep acc).1 = some p := by
  induction l with
  | nil => intro acc; exact Or.inl rfl
  | cons x rest ih =>
    intro acc
    by_cases hx : isMidnightTs x.timestamp
    · rcases ih (todayStep acc x) with h | h
      · refine Or.inr ⟨x, List.mem_cons_self .., hx, ?_⟩
        rw [List.foldl_cons, h, todayStep, if_pos hx]
      · obtain ⟨p, hp, hmid, heq⟩ := h
        exact Or.inr ⟨p, List.mem_cons_of_mem _ hp, hmid, heq⟩
    · have hstep : (todayStep acc x).1 = acc.1 := by
        rw [todayStep, if_neg hx]
        cases acc.2 with
        | none => rfl
        | some prev => by_cases h : prev.timestamp < x.timestamp <;> simp [h]
      rcases ih (todayStep acc x) with h | h
      · exact Or.inl (by rw [List.foldl_cons, h, hstep])
      · obtain ⟨p, hp, hmid, heq⟩ := h
        exact Or.inr ⟨p, List.mem_cons_of_mem _ hp, hmid, heq⟩

theorem todayFold_fst_eq {m : DataPoint} (l : List DataPoint) :
    ∀ acc : Option DataPoint × Option DataPoint,
      (∀ p ∈ l, isMidnightTs p.timestamp = true → p = m) →
      (acc.1 = some m ∨ ∃ p ∈ l, isMidnightTs p.timestamp = true) →
      (l.foldl todayStep acc).1 = some m := by
  induction l with
  | nil =>
    intro acc _ hstart
    rcases hstart with h | h
    · exact h
    · simp at h
  | cons x rest ih =>
    intro acc hall hstart
    by_cases hx : isMidnightTs x.timestamp
    · have hxm : x = m := hall x (List.mem_cons_self ..) hx
      refine ih (todayStep acc x) (fun p hp h => hall p (List.mem_cons_of_mem _ hp) h)
        (Or.inl ?_)
      rw [todayStep, if_pos hx, hxm]
    · have hstep : (todayStep acc x).1 = acc.1 := by
        rw [todayStep, if_neg hx]
        cases acc.2 with
        | none => rfl
        | some prev => by_cases h : prev.timestamp < x.timestamp <;> simp [h]
      refine ih (todayStep acc x) (fun p hp h => hall p (List.mem_cons_of_mem _ hp) h) ?_
      rcases hstart with h | h
      · exact Or.inl (hstep ▸ h)
      · obtain ⟨p, hp, hmid⟩ := h
        rcases List.mem_cons.1 hp with hpe | hpe
        · exact absurd (hpe ▸ hmid) (by simp [hx])
        · exact Or.inr ⟨p, hpe, hmid⟩

theorem todayFold_snd (l : List DataPoint) :
    ∀ acc : Option DataPoint × Option DataPoint,
      (l.foldl todayStep acc).2 = acc.2 ∨
        ∃ p ∈ l, isMidnightTs p.timestamp = false ∧
          (l.foldl todayStep acc).2 = some p := by
  induction l with
  | nil => intro acc; exact Or.inl rfl
  | cons x rest ih =>
    intro acc
    by_cases hx : isMidnightTs x.timestamp
    · have hstep : (todayStep acc x).2 = acc.2 := by rw [todayStep, if_pos hx]
      rcases ih (todayStep acc x) with h | h
      · exact Or.inl (by rw [List.foldl_cons, h, hstep])
      · obtain ⟨p, hp, hmid, heq⟩ := h
        exact Or.inr ⟨p, List.mem_cons_of_mem _ hp, hmid, heq⟩
    · have hstep : (todayStep acc x).2 = acc.2 ∨ (todayStep acc x).2 = some x := by
        cases hacc : acc.2 with
        | none => exact Or.inr (by simp [todayStep, hx, hacc])
        | some prev =>
          by_cases h : prev.timestamp < x.timestamp
          · exact Or.inr (by simp [todayStep, hx, hacc, h])
          · exact Or.inl (by simp [todayStep, hx, hacc, h])
      rcases ih (todayStep acc x) with h | h
      · rcases hstep with h' | h'
        · exact Or.inl (by rw [List.foldl_cons, h, h'])
        · refine Or.inr ⟨x, List.mem_cons_self .., by simp [hx], ?_⟩
          rw [List.foldl_cons, h, h']
      · obtain ⟨p, hp, hmid, heq⟩ := h
        exact Or.inr ⟨p, List.mem_cons_of_mem _ hp, hmid, heq⟩

theorem todayFold_snd_mono (l : List DataPoint) :
    ∀ (acc : Option DataPoint × Option DataPoint) (b : DataPoint),
      acc.2 = some b →
      ∃ v, (l.foldl todayStep acc).2 = some v ∧ b.timestamp ≤ v.timestamp := by
  induction l with
  | nil => intro acc b hb; exact ⟨b, hb, Nat.le_refl _⟩
  | cons x rest ih =>
    intro acc b hb
    rw [List.foldl_cons]
    by_cases hx : isMidnightTs x.timestamp
    · exact ih (todayStep acc x) b (by simp only [todayStep, if_pos hx]; exact hb)
    · by_cases h : b.timestamp < x.timestamp
      · have hstep : (todayStep acc x).2 = some x := by
          simp [todayStep, hx, hb, h]
        obtain ⟨v, hv, hle⟩ := ih (todayStep acc x) x hstep
        exact ⟨v, hv, Nat.le_trans (Nat.le_of_lt h) hle⟩
      · have hstep : (todayStep acc x).2 = some b := by
          simp [todayStep, hx, hb, h]
        exact ih (todayStep acc x) b hstep

theorem todayFold_snd_max (l : List DataPoint) :
    ∀ acc : Option DataPoint × Option DataPoint, ∀ u ∈ l,
      isMidnightTs u.timestamp = false →
      ∃ v, (l.foldl todayStep acc).2 = some v ∧ u.timestamp ≤ v.timestamp := by
  induction l with
  | nil => intro acc u hu; simp at hu
  | cons x rest ih =>
    intro acc u hu hmid
    rw [List.foldl_cons]
    rcases List.mem_cons.1 hu with h | h
    · subst h
      have hstep : ∃ v₀, (todayStep acc u).2 = some v₀ ∧
          u.timestamp ≤ v₀.timestamp := by
        cases hacc : acc.2 with
        | none => exact ⟨u, by simp [todayStep, hmid, hacc], Nat.le_refl _⟩
        | some prev =>
          by_cases h : prev.timestamp < u.timestamp
          · exact ⟨u, by simp [todayStep, hmid, hacc, h], Nat.le_refl _⟩
          · exact ⟨prev, by simp [todayStep, hmid, hacc, h], Nat.le_of_not_lt h⟩
      obtain ⟨v₀, hv₀, hle⟩ := hstep
      obtain ⟨v, hv, hle'⟩ := todayFold_snd_mono rest (todayStep acc u) v₀ hv₀
      exact ⟨v, hv, Nat.le_trans hle hle'⟩
    · exact ih (todayStep acc x) u h hmid

theorem mem_validPoints {d : List (Option DataPoint)} {p : DataPoint} :
    p ∈ validPoints d ↔ some p ∈ d ∧ p.timestamp ≠ 0 := by
  simp only [validPoints, List.mem_filterMap]
  constructor
  · rintro ⟨item, hmem, hres⟩
    cases item with
    | none => simp at hres
    | some q =>
      by_cases h : q.timestamp = 0
      · simp [h] at hres
      · simp [h] at hres
        exact ⟨hres ▸ hmem, hres ▸ h⟩
  · rintro ⟨hmem, h0⟩
    exact ⟨some p, hmem, by simp [h0]⟩

theorem ts_lt_of_same_day {a b : Nat} (hday : dayKey a = dayKey b)
    (hmod : a % msPerDay < b % msPerDay) : a < b := by
  have ha := Nat.div_add_mod a msPerDay
  have hb := Nat.div_add_mod b msPerDay
  simp only [dayKey] at hday
  rw [hday] at ha
  omega

theorem ts_ne_of_day_ne {a b : Nat} (h : dayKey a ≠ dayKey b) : a ≠ b :=
  fun he => h (he ▸ rfl)

theorem ts_lt_of_midnight {a b : Nat} (hday : dayKey a = dayKey b)
    (hma : isMidnightTs a = true) (hmb : isMidnightTs b = false) : a < b := by
  simp only [isMidnightTs, decide_eq_true_eq] at hma
  simp only [isMidnightTs, decide_eq_false_iff_not, Nat.not_lt] at hmb
  exact ts_lt_of_same_day hday (Nat.lt_of_lt_of_le hma hmb)

theorem sorted_eq_of_perm {l₁ l₂ : List DataPoint} (hperm : l₁.Perm l₂)
    (hs₁ : l₁.Sorted byTimestamp) (hs₂ : l₂.Pairwise byTimestampStrict) :
    l₁ = l₂ := by
  have hne₂ : l₂.Pairwise fun a b => a.timestamp ≠ b.timestamp :=
    hs₂.imp fun h => Nat.ne_of_lt h
  have hne₁ : l₁.Pairwise fun a b => a.timestamp ≠ b.timestamp :=
    ((hperm.pairwise_iff fun h => Ne.symm h).2 hne₂)
  have hstrict₁ : l₁.Pairwise byTimestampStrict :=
    (hs₁.and hne₁).imp fun h => Nat.lt_of_le_of_ne h.1 h.2
  exact List.eq_of_perm_of_sorted hperm hstrict₁ hs₂

theorem removeDuplicateDates_eq (d : List (Option DataPoint)) (hd : d ≠ [])
    (w : Bool) (now : Nat) :
    removeDuplicateDates (some d) w now =
      List.insertionSort byTimestamp (reconPool w now d) := by
  simp only [removeDuplicateDates]
  rw [if_neg (by simpa [List.length_eq_zero] using hd)]

theorem dedupOthers_keys_nodup {w : Bool} (l : List DataPoint) :
    ((dedupOthers w l).map Prod.fst).Nodup :=
  dedupFold_keys_nodup l [] (by simp)

theorem dedupOthers_keyed {w : Bool} (l : List DataPoint) :
    ∀ e ∈ dedupOthers w l, bucketKey w e.2.timestamp = e.1 :=
  dedupFold_keyed l [] (by simp)

theorem dedupOthers_snd_mem {w : Bool} (l : List DataPoint) :
    ∀ e ∈ dedupOthers w l, e.2 ∈ l := fun e he =>
  (dedupFold_snd_mem l [] e he).elim id (by simp)

theorem dedupOthers_max {w : Bool} (l : List DataPoint) :
    ∀ p ∈ l, ∃ e ∈ dedupOthers w l,
      e.1 = bucketKey w p.timestamp ∧ p.timestamp ≤ e.2.timestamp :=
  dedupFold_max l [] (by simp)

theorem dedupOthers_ts_nodup {w : Bool} (l : List DataPoint) :
    ((dedupOthers w l).map fun e => e.2.timestamp).Nodup := by
  have hkeys := @dedupOthers_keys_nodup w l
  have hkeyed := @dedupOthers_keyed w l
  have hmap : (dedupOthers w l).map Prod.fst =
      (dedupOthers w l).map fun e => bucketKey w e.2.timestamp :=
    (List.map_congr_left fun e he => (hkeyed e he).symm)
  rw [hmap] at hkeys
  have hcomp : ((dedupOthers w l).map fun e => bucketKey w e.2.timestamp) =
      ((dedupOthers w l).map fun e => e.2.timestamp).map (bucketKey w) := by
    rw [List.map_map]; rfl
  rw [hcomp] at hkeys
  exact hkeys.of_map _

theorem assoc_filter_bucket {w : Bool} {seen : List (Nat × DataPoint)}
    {b : Nat} {keep : DataPoint} (hkeys : (seen.map Prod.fst).Nodup)
    (hkeyed : ∀ e ∈ seen, bucketKey w e.2.timestamp = e.1)
    (hmem : (b, keep) ∈ seen) :
    (seen.map Prod.snd).filter
      (fun p => bucketKey w p.timestamp == b) = [keep] := by
  induction seen with
  | nil => simp at hmem
  | cons e rest ih =>
    obtain ⟨k, v⟩ := e
    simp only [List.map, List.nodup_cons] at hkeys
    have hkv : bucketKey w v.timestamp = k := hkeyed (k, v) (List.mem_cons_self ..)
    rcases List.mem_cons.1 hmem with h | h
    · rw [Prod.mk.injEq] at h
      obtain ⟨hb, hkeep⟩ := h
      subst hb; subst hkeep
      have hhead : (bucketKey w keep.timestamp == b) = true := by simp [hkv]
      have htail : (rest.map Prod.snd).filter
          (fun p => bucketKey w p.timestamp == b) = [] := by
        rw [List.filter_eq_nil_iff]
        intro p hp
        obtain ⟨e', he', hpe⟩ := List.mem_map.1 hp
        have hb' : bucketKey w p.timestamp = e'.1 := hpe ▸ hkeyed e'
          (List.mem_cons_of_mem _ he')
        simp only [beq_iff_eq, hb']
        intro hcon
        exact hkeys.1 (hcon ▸ List.mem_map_of_mem Prod.fst he')
      simp only [List.map, List.filter, hhead, htail]
    · have hbk : b ≠ k := by
        intro hcon
        exact hkeys.1 (hcon ▸ List.mem_map_of_mem Prod.fst h)
      have hhead : (bucketKey w v.timestamp == b) = false := by
        simp [hkv, Ne.symm hbk]
      simp only [List.map, List.filter, hhead]
      exact ih hkeys.2 (fun e' he' => hkeyed e' (List.mem_cons_of_mem _ he')) h

theorem dedupOthers_filter_bucket {w : Bool} {l : List DataPoint} {b : Nat}
    {keep : DataPoint} (hmem : (b, keep) ∈ dedupOthers w l) :
    ((dedupOthers w l).map Prod.snd).filter
      (fun p => bucketKey w p.timestamp == b) = [keep] :=
  assoc_filter_bucket (dedupOthers_keys_nodup l) (dedupOthers_keyed l) hmem

theorem todaySelect_fst (l : List DataPoint) :
    (todaySelect l).1 = none ∨
      ∃ p ∈ l, isMidnightTs p.timestamp = true ∧ (todaySelect l).1 = some p := by
  rcases todayFold_fst l (none, none) with h | h
  · exact Or.inl h
  · exact Or.inr h

theorem todaySelect_snd (l : List DataPoint) :
    (todaySelect l).2 = none ∨
      ∃ p ∈ l, isMidnightTs p.timestamp = false ∧ (todaySelect l).2 = some p := by
  rcases todayFold_snd l (none, none) with h | h
  · exact Or.inl h
  · exact Or.inr h

theorem todaySelect_snd_max (l : List DataPoint) :
    ∀ u ∈ l, isMidnightTs u.timestamp = false →
      ∃ v, (todaySelect l).2 = some v ∧ u.timestamp ≤ v.timestamp :=
  todayFold_snd_max l (none, none)

theorem todaySelect_fst_eq {m : DataPoint} {l : List DataPoint}
    (hall : ∀ p ∈ l, isMidnightTs p.timestamp = true → p = m)
    (hex : ∃ p ∈ l, isMidnightTs p.timestamp = true) :
    (todaySelect l).1 = some m :=
  todayFold_fst_eq l (none, none) hall (Or.inr hex)

theorem option_toList_pairwise {α : Type} {R : α → α → Prop} (o : Option α) :
    o.toList.Pairwise R := by
  cases o <;> simp

theorem mem_todayEntries {now : Nat} {d : List (Option DataPoint)}
    {p : DataPoint} : p ∈ todayEntries now d ↔
      some p ∈ d ∧ p.timestamp ≠ 0 ∧ dayKey p.timestamp = dayKey now := by
  simp only [todayEntries, List.mem_filter, mem_validPoints, beq_iff_eq]
  tauto

theorem mem_otherEntries {now : Nat} {d : List (Option DataPoint)}
    {p : DataPoint} : p ∈ otherEntries now d ↔
      some p ∈ d ∧ p.timestamp ≠ 0 ∧ dayKey p.timestamp ≠ dayKey now := by
  simp only [otherEntries, List.mem_filter, mem_validPoints,
    Bool.not_eq_true', beq_eq_false_iff_ne, ne_eq]
  tauto

theorem reconPool_cases {w : Bool} {now : Nat} {d : List (Option DataPoint)}
    {p : DataPoint} (hp : p ∈ reconPool w now d) :
    (∃ e ∈ dedupOthers w (otherEntries now d), e.2 = p) ∨
      (todaySelect (todayEntries now d)).1 = some p ∨
      (todaySelect (todayEntries now d)).2 = some p := by
  simp only [reconPool, List.mem_append] at hp
  rcases hp with (hp | hp) | hp
  · obtain ⟨e, he, hpe⟩ := List.mem_map.1 hp
    exact Or.inl ⟨e, he, hpe⟩
  · cases hsel : (todaySelect (todayEntries now d)).1 with
    | none => rw [hsel] at hp; simp at hp
    | some v =>
      rw [hsel] at hp
      simp only [Option.toList_some, List.mem_singleton] at hp
      exact Or.inr (Or.inl (by rw [hp]))
  · cases hsel : (todaySelect (todayEntries now d)).2 with
    | none => rw [hsel] at hp; simp at hp
    | some v =>
      rw [hsel] at hp
      simp only [Option.toList_some, List.mem_singleton] at hp
      exact Or.inr (Or.inr (by rw [hp]))

theorem reconPool_mem_valid {w : Bool} {now : Nat} {d : List (Option DataPoint)}
    {p : DataPoint} (hp : p ∈ reconPool w now d) :
    some p ∈ d ∧ p.timestamp ≠ 0 := by
  rcases reconPool_cases hp with ⟨e, he, hpe⟩ | h | h
  · have := mem_otherEntries.1 (hpe ▸ dedupOthers_snd_mem _ e he)
    exact ⟨this.1, this.2.1⟩
  · rcases todaySelect_fst (todayEntries now d) with h' | ⟨q, hq, _, h'⟩
    · rw [h'] at h; cases h
    · rw [h'] at h
      obtain rfl : q = p := Option.some.inj h
      have := mem_todayEntries.1 hq
      exact ⟨this.1, this.2.1⟩
  · rcases todaySelect_snd (todayEntries now d) with h' | ⟨q, hq, _, h'⟩
    · rw [h'] at h; cases h
    · rw [h'] at h
      obtain rfl : q = p := Option.some.inj h
      have := mem_todayEntries.1 hq
      exact ⟨this.1, this.2.1⟩

theorem reconPool_pairwise_ne (w : Bool) (now : Nat)
    (d : List (Option DataPoint)) :
    (reconPool w now d).Pairwise fun a b => a.timestamp ≠ b.timestamp := by
  have hseen : ((dedupOthers w (otherEntries now d)).map Prod.snd).Pairwise
      fun a b => a.timestamp ≠ b.timestamp := by
    have := @dedupOthers_ts_nodup w (otherEntries now d)
    have hpw := List.pairwise_map.1 this
    exact List.pairwise_map.2 hpw
  have hseen_nt : ∀ a ∈ (dedupOthers w (otherEntries now d)).map Prod.snd,
      dayKey a.timestamp ≠ dayKey now := by
    intro a ha
    obtain ⟨e, he, hae⟩ := List.mem_map.1 ha
    exact (mem_otherEntries.1 (hae ▸ dedupOthers_snd_mem _ e he)).2.2
  have hfst_today : ∀ a, (todaySelect (todayEntries now d)).1 = some a →
      dayKey a.timestamp = dayKey now ∧ isMidnightTs a.timestamp = true := by
    intro a ha
    rcases todaySelect_fst (todayEntries now d) with h' | ⟨q, hq, hmid, h'⟩
    · rw [h'] at ha; cases ha
    · rw [h'] at ha
      obtain rfl : q = a := Option.some.inj ha
      exact ⟨(mem_todayEntries.1 hq).2.2, hmid⟩
  have hsnd_today : ∀ a, (todaySelect (todayEntries now d)).2 = some a →
      dayKey a.timestamp = dayKey now ∧ isMidnightTs a.timestamp = false := by
    intro a ha
    rcases todaySelect_snd (todayEntries now d) with h' | ⟨q, hq, hmid, h'⟩
    · rw [h'] at ha; cases ha
    · rw [h'] at ha
      obtain rfl : q = a := Option.some.inj ha
      exact ⟨(mem_todayEntries.1 hq).2.2, hmid⟩
  rw [reconPool, List.append_assoc, List.pairwise_append]
  refine ⟨hseen, ?_, ?_⟩
  · rw [List.pairwise_append]
    refine ⟨option_toList_pairwise _, option_toList_pairwise _, ?_⟩
    intro a ha b hb
    rw [Option.mem_toList, Option.mem_def] at ha hb
    have h₁ := hfst_today a ha
    have h₂ := hsnd_today b hb
    exact Nat.ne_of_lt (ts_lt_of_midnight (h₁.1.trans h₂.1.symm) h₁.2 h₂.2)
  · intro a ha b hb
    have hna := hseen_nt a ha
    rw [List.mem_append, Option.mem_toList, Option.mem_toList,
      Option.mem_def, Option.mem_def] at hb
    have hbt : dayKey b.timestamp = dayKey now := by
      rcases hb with hb | hb
      · exact (hfst_today b hb).1
      · exact (hsnd_today b hb).1
    exact ts_ne_of_day_ne (fun h => hna (h ▸ hbt))

theorem recon_sorted (data : Option (List (Option DataPoint))) (w : Bool)
    (now : Nat) : (removeDuplicateDates data w now).Sorted byTimestamp := by
  cases data with
  | none => simp [removeDuplicateDates]
  | some d =>
    by_cases hd : d = []
    · subst hd; simp [removeDuplicateDates]
    · rw [removeDuplicateDates_eq d hd]
      exact List.sorted_insertionSort byTimestamp _

theorem recon_perm_pool {d : List (Option DataPoint)} (hd : d ≠ [])
    (w : Bool) (now : Nat) :
    (removeDuplicateDates (some d) w now).Perm (reconPool w now d) := by
  rw [removeDuplicateDates_eq d hd]
  exact List.perm_insertionSort byTimestamp _

theorem recon_pairwise_strict (data : Option (List (Option DataPoint)))
    (w : Bool) (now : Nat) :
    (removeDuplicateDates data w now).Pairwise byTimestampStrict := by
  cases data with
  | none => simp [removeDuplicateDates]
  | some d =>
    by_cases hd : d = []
    · subst hd; simp [removeDuplicateDates]
    · have hperm := recon_perm_pool hd w now
      have hane : (removeDuplicateDates (some d) w now).Pairwise
          fun a b => a.timestamp ≠ b.timestamp :=
        (hperm.pairwise_iff (fun h => Ne.symm h)).2 (reconPool_pairwise_ne w now d)
      exact ((recon_sorted (some d) w now).and hane).imp
        fun h => Nat.lt_of_le_of_ne h.1 h.2

theorem todaySelect_fst_spec {l : List DataPoint} {a : DataPoint}
    (h : (todaySelect l).1 = some a) :
    a ∈ l ∧ isMidnightTs a.timestamp = true := by
  rcases todaySelect_fst l with h' | ⟨q, hq, hmid, h'⟩
  · rw [h'] at h; cases h
  · rw [h'] at h
    obtain rfl : q = a := Option.some.inj h
    exact ⟨hq, hmid⟩

theorem todaySelect_snd_spec {l : List DataPoint} {a : DataPoint}
    (h : (todaySelect l).2 = some a) :
    a ∈ l ∧ isMidnightTs a.timestamp = false := by
  rcases todaySelect_snd l with h' | ⟨q, hq, hmid, h'⟩
  · rw [h'] at h; cases h
  · rw [h'] at h
    obtain rfl : q = a := Option.some.inj h
    exact ⟨hq, hmid⟩

theorem reconPool_today_cases {w : Bool} {now : Nat}
    {d : List (Option DataPoint)} {p : DataPoint} (hp : p ∈ reconPool w now d)
    (htoday : dayKey p.timestamp = dayKey now) :
    (todaySelect (todayEntries now d)).1 = some p ∨
      (todaySelect (todayEntries now d)).2 = some p := by
  rcases reconPool_cases hp with ⟨e, he, hpe⟩ | h | h
  · have := (mem_otherEntries.1 (hpe ▸ dedupOthers_snd_mem _ e he)).2.2
    exact absurd htoday this
  · exact Or.inl h
  · exact Or.inr h

/-- Shape of a reconciled history, stated over the source's key functions:
nonzero timestamps, strictly increasing order, one point per bucket away from
today, and at most one midnight point and one intra-day point on today's
date. -/
structure Canonical (w : Bool) (now : Nat) (l : List DataPoint) : Prop where
  nonzero : ∀ p ∈ l, p.timestamp ≠ 0
  strict : l.Pairwise byTimestampStrict
  bucketUnique : ∀ a ∈ l, ∀ b ∈ l, dayKey a.timestamp ≠ dayKey now →
    dayKey b.timestamp ≠ dayKey now →
    bucketKey w a.timestamp = bucketKey w b.timestamp → a = b
  midUnique : ∀ a ∈ l, ∀ b ∈ l, dayKey a.timestamp = dayKey now →
    dayKey b.timestamp = dayKey now → isMidnightTs a.timestamp = true →
    isMidnightTs b.timestamp = true → a = b
  intradayUnique : ∀ a ∈ l, ∀ b ∈ l, dayKey a.timestamp = dayKey now →
    dayKey b.timestamp = dayKey now → isMidnightTs a.timestamp = false →
    isMidnightTs b.timestamp = false → a = b

theorem recon_canonical (data : Option (List (Option DataPoint))) (w : Bool)
    (now : Nat) : Canonical w now (removeDuplicateDates data w now) := by
  cases data with
  | none =>
    simp only [removeDuplicateDates]
    exact ⟨by simp, by simp, by simp, by simp, by simp⟩
  | some d =>
    by_cases hd : d = []
    · subst hd
      simp only [removeDuplicateDates, List.length_nil, if_pos rfl]
      exact ⟨by simp, by simp, by simp, by simp, by simp⟩
    · have hperm := recon_perm_pool hd w now
      refine ⟨?_, recon_pairwise_strict (some d) w now, ?_, ?_, ?_⟩
      · intro p hp
        exact (reconPool_mem_valid (hperm.mem_iff.1 hp)).2
      · intro a ha b hb hant hbnt hbk
        rcases reconPool_cases (hperm.mem_iff.1 ha) with ⟨e, he, hpe⟩ | h | h
        · rcases reconPool_cases (hperm.mem_iff.1 hb) with ⟨f, hf, hpf⟩ | h' | h'
          · have hek : bucketKey w e.2.timestamp = e.1 := dedupOthers_keyed _ e he
            have hfk : bucketKey w f.2.timestamp = f.1 := dedupOthers_keyed _ f hf
            have hkey : e.1 = f.1 := by
              rw [← hek, ← hfk, hpe, hpf]; exact hbk
            have he' : (e.1, a) ∈ dedupOthers w (otherEntries now d) := by
              have : e = (e.1, e.2) := rfl
              rw [← hpe]; simpa using he
            have hf' : (e.1, b) ∈ dedupOthers w (otherEntries now d) := by
              rw [← hpf, hkey]; simpa using hf
            exact assoc_value_unique (dedupOthers_keys_nodup _) he' hf'
          · exact absurd ((mem_todayEntries.1 (todaySelect_fst_spec h').1).2.2) hbnt
          · exact absurd ((mem_todayEntries.1 (todaySelect_snd_spec h').1).2.2) hbnt
        · exact absurd ((mem_todayEntries.1 (todaySelect_fst_spec h).1).2.2) hant
        · exact absurd ((mem_todayEntries.1 (todaySelect_snd_spec h).1).2.2) hant
      · intro a ha b hb hat hbt hamid hbmid
        have hca := reconPool_today_cases (hperm.mem_iff.1 ha) hat
        have hcb := reconPool_today_cases (hperm.mem_iff.1 hb) hbt
        rcases hca with hca | hca
        · rcases hcb with hcb | hcb
          · exact Option.some.inj (hca ▸ hcb ▸ rfl)
          · exact absurd hbmid (by simp [(todaySelect_snd_spec hcb).2])
        · exact absurd hamid (by simp [(todaySelect_snd_spec hca).2])
      · intro a ha b hb hat hbt hamid hbmid
        have hca := reconPool_today_cases (hperm.mem_iff.1 ha) hat
        have hcb := reconPool_today_cases (hperm.mem_iff.1 hb) hbt
        rcases hca with hca | hca
        · exact absurd hamid (by simp [(todaySelect_fst_spec hca).2])
        · rcases hcb with hcb | hcb
          · exact absurd hbmid (by simp [(todaySelect_fst_spec hcb).2])
          · exact Option.some.inj (hca ▸ hcb ▸ rfl)

theorem validPoints_map_some {l : List DataPoint}
    (h : ∀ p ∈ l, p.timestamp ≠ 0) : validPoints (l.map some) = l := by
  induction l with
  | nil => rfl
  | cons x rest ih =>
    have hx : x.timestamp ≠ 0 := h x (List.mem_cons_self ..)
    have hr := ih fun p hp => h p (List.mem_cons_of_mem _ hp)
    simp only [validPoints, List.map, List.filterMap_cons] at hr ⊢
    simp only [hx, if_false]
    rw [hr]

theorem todaySelect_perm {l : List DataPoint}
    (hstrict : l.Pairwise byTimestampStrict)
    (hmid : ∀ a ∈ l, ∀ b ∈ l, isMidnightTs a.timestamp = true →
      isMidnightTs b.timestamp = true → a = b)
    (hnonmid : ∀ a ∈ l, ∀ b ∈ l, isMidnightTs a.timestamp = false →
      isMidnightTs b.timestamp = false → a = b) :
    ((todaySelect l).1.toList ++ (todaySelect l).2.toList).Perm l := by
  cases l with
  | nil => simp [todaySelect]
  | cons x rest =>
    cases rest with
    | nil =>
      by_cases hx : isMidnightTs x.timestamp
      · simp [todaySelect, todayStep, hx]
      · simp [todaySelect, todayStep, hx]
    | cons y rest₂ =>
      have hxmem : x ∈ x :: y :: rest₂ := List.mem_cons_self ..
      have hymem : y ∈ x :: y :: rest₂ := List.mem_cons_of_mem _ (List.mem_cons_self ..)
      have hxyne : x ≠ y := by
        intro he
        have hlt := (List.pairwise_cons.1 hstrict).1 y (List.mem_cons_self ..)
        exact absurd (he ▸ hlt) (Nat.lt_irrefl _)
      cases rest₂ with
      | nil =>
        by_cases hx : isMidnightTs x.timestamp <;>
          by_cases hy : isMidnightTs y.timestamp
        · exact absurd (hmid x hxmem y hymem (by simp [hx]) (by simp [hy])) hxyne
        · simp [todaySelect, todayStep, hx, hy]
        · have : ((todaySelect [x, y]).1.toList ++ (todaySelect [x, y]).2.toList)
              = [y, x] := by
            simp [todaySelect, todayStep, hx, hy]
          rw [this]
          exact List.Perm.swap x y []
        · exact absurd (hnonmid x hxmem y hymem (by simp [hx]) (by simp [hy])) hxyne
      | cons z rest₃ =>
        exfalso
        have hzmem : z ∈ x :: y :: z :: rest₃ :=
          List.mem_cons_of_mem _ (List.mem_cons_of_mem _ (List.mem_cons_self ..))
        have htail : (y :: z :: rest₃).Pairwise byTimestampStrict :=
          (List.pairwise_cons.1 hstrict).2
        have hxzne : x ≠ z := by
          intro he
          have hlt := (List.pairwise_cons.1 hstrict).1 z
            (List.mem_cons_of_mem _ (List.mem_cons_self ..))
          exact absurd (he ▸ hlt) (Nat.lt_irrefl _)
        have hyzne : y ≠ z := by
          intro he
          have hlt := (List.pairwise_cons.1 htail).1 z (List.mem_cons_self ..)
          exact absurd (he ▸ hlt) (Nat.lt_irrefl _)
        by_cases hx : isMidnightTs x.timestamp <;>
          by_cases hy : isMidnightTs y.timestamp <;>
          by_cases hz : isMidnightTs z.timestamp
        · exact hxyne (hmid x hxmem y hymem (by simp [hx]) (by simp [hy]))
        · exact hxyne (hmid x hxmem y hymem (by simp [hx]) (by simp [hy]))
        · exact hxzne (hmid x hxmem z hzmem (by simp [hx]) (by simp [hz]))
        · exact hyzne (hnonmid y hymem z hzmem (by simp [hy]) (by simp [hz]))
        · exact hyzne (hmid y hymem z hzmem (by simp [hy]) (by simp [hz]))
        · exact hxzne (hnonmid x hxmem z hzmem (by simp [hx]) (by simp [hz]))
        · exact hxyne (hnonmid x hxmem y hymem (by simp [hx]) (by simp [hy]))
        · exact hxyne (hnonmid x hxmem y hymem (by simp [hx]) (by simp [hy]))

theorem dedupOthers_of_nodup_buckets {w : Bool} {l : List DataPoint}
    (hnd : (l.map fun p => bucketKey w p.timestamp).Nodup) :
    (dedupOthers w l).map Prod.snd = l := by
  rw [dedupOthers, dedupFold_append l [] (by simp) hnd]
  simp [List.map_map]
  exact List.map_id l

theorem recon_fix {w : Bool} {now : Nat} {l : List DataPoint}
    (hc : Canonical w now l) :
    removeDuplicateDates (some (l.map some)) w now = l := by
  by_cases hl : l = []
  · subst hl; rfl
  · have hmapne : l.map some ≠ [] := by simpa using hl
    rw [removeDuplicateDates_eq _ hmapne]
    have hvalid : validPoints (l.map some) = l := validPoints_map_some hc.nonzero
    have htoday : todayEntries now (l.map some) =
        l.filter fun p => dayKey p.timestamp == dayKey now := by
      rw [todayEntries, hvalid]
    have hother : otherEntries now (l.map some) =
        l.filter fun p => !(dayKey p.timestamp == dayKey now) := by
      rw [otherEntries, hvalid]
    have hstrictOther :
        (l.filter fun p => !(dayKey p.timestamp == dayKey now)).Pairwise
          byTimestampStrict :=
      List.Pairwise.sublist (List.filter_sublist l) hc.strict
    have hbnd : ((l.filter fun p => !(dayKey p.timestamp == dayKey now)).map
        fun p => bucketKey w p.timestamp).Nodup := by
      refine (List.pairwise_map).2 (hstrictOther.imp_of_mem ?_)
      intro a b ha hb hab hbk
      have ha' := List.mem_filter.1 ha
      have hb' := List.mem_filter.1 hb
      have hant : dayKey a.timestamp ≠ dayKey now := by
        simpa using ha'.2
      have hbnt : dayKey b.timestamp ≠ dayKey now := by
        simpa using hb'.2
      have : a = b := hc.bucketUnique a ha'.1 b hb'.1 hant hbnt hbk
      exact absurd (this ▸ hab) (Nat.lt_irrefl _)
    have hseen : (dedupOthers w (otherEntries now (l.map some))).map Prod.snd =
        l.filter fun p => !(dayKey p.timestamp == dayKey now) := by
      rw [hother]
      exact dedupOthers_of_nodup_buckets hbnd
    have hsel : ((todaySelect (todayEntries now (l.map some))).1.toList ++
        (todaySelect (todayEntries now (l.map some))).2.toList).Perm
        (l.filter fun p => dayKey p.timestamp == dayKey now) := by
      rw [htoday]
      refine todaySelect_perm
        (List.Pairwise.sublist (List.filter_sublist l) hc.strict) ?_ ?_
      · intro a ha b hb hma hmb
        have ha' := List.mem_filter.1 ha
        have hb' := List.mem_filter.1 hb
        exact hc.midUnique a ha'.1 b hb'.1 (by simpa using ha'.2)
          (by simpa using hb'.2) hma hmb
      · intro a ha b hb hma hmb
        have ha' := List.mem_filter.1 ha
        have hb' := List.mem_filter.1 hb
        exact hc.intradayUnique a ha'.1 b hb'.1 (by simpa using ha'.2)
          (by simpa using hb'.2) hma hmb
    have hpool : (reconPool w now (l.map some)).Perm l := by
      rw [reconPool, List.append_assoc, hseen]
      have h₁ : ((l.filter fun p => !(dayKey p.timestamp == dayKey now)) ++
          ((todaySelect (todayEntries now (l.map some))).1.toList ++
            (todaySelect (todayEntries now (l.map some))).2.toList)).Perm
          ((l.filter fun p => !(dayKey p.timestamp == dayKey now)) ++
            l.filter fun p => dayKey p.timestamp == dayKey now) :=
        List.Perm.append_left _ hsel
      refine h₁.trans ?_
      refine List.perm_append_comm.trans ?_
      exact List.filter_append_perm _ l
    exact sorted_eq_of_perm
      ((List.perm_insertionSort byTimestamp _).trans hpool)
      (List.sorted_insertionSort byTimestamp _) hc.strict

/-- C1: reconciliation (`removeDuplicateDates`) is idempotent — for every list
of data points and every granularity flag, applying it a second time to its
own output (taken at the same instant `now`) yields the same sequence as
applying it once. -/
theorem removeDuplicateDates_idempotent
    (data : Option (List (Option DataPoint))) (w : Bool) (now : Nat) :
    removeDuplicateDates
        (some ((removeDuplicateDates data w now).map some)) w now =
      removeDuplicateDates data w now :=
  recon_fix (recon_canonical data w now)

theorem reconPool_filter_today_le {w : Bool} {now : Nat}
    {d : List (Option DataPoint)} :
    ((reconPool w now d).filter
      (fun p => dayKey p.timestamp == dayKey now)).length ≤ 2 := by
  rw [reconPool, List.append_assoc, List.filter_append, List.filter_append]
  have hseen : ((dedupOthers w (otherEntries now d)).map Prod.snd).filter
      (fun p => dayKey p.timestamp == dayKey now) = [] := by
    rw [List.filter_eq_nil_iff]
    intro p hp
    obtain ⟨e, he, hpe⟩ := List.mem_map.1 hp
    have := (mem_otherEntries.1 (hpe ▸ dedupOthers_snd_mem _ e he)).2.2
    simpa using this
  rw [hseen]
  simp only [List.nil_append, List.length_append]
  have h₁ := List.length_filter_le
    (fun p : DataPoint => dayKey p.timestamp == dayKey now)
    (todaySelect (todayEntries now d)).1.toList
  have h₂ := List.length_filter_le
    (fun p : DataPoint => dayKey p.timestamp == dayKey now)
    (todaySelect (todayEntries now d)).2.toList
  have h₃ : (todaySelect (todayEntries now d)).1.toList.length ≤ 1 := by
    cases (todaySelect (todayEntries now d)).1 <;> simp
  have h₄ : (todaySelect (todayEntries now d)).2.toList.length ≤ 1 := by
    cases (todaySelect (todayEntries now d)).2 <;> simp
  omega

/-- C2: every reconciled output satisfies the canonical-history invariant —
it is sorted non-decreasing by timestamp; away from the current UTC day it has
at most one entry per bucket (calendar day, or Sunday-aligned week start for
weekly series); the current UTC day keeps at most two entries, at most one of
them the midnight snapshot and at most one a non-midnight snapshot, the
latter no earlier than every intra-day input point of the day. -/
theorem removeDuplicateDates_invariant (d : List (Option DataPoint))
    (w : Bool) (now : Nat) :
    (removeDuplicateDates (some d) w now).Sorted byTimestamp ∧
    (∀ a ∈ removeDuplicateDates (some d) w now,
      ∀ b ∈ removeDuplicateDates (some d) w now,
        dayKey a.timestamp ≠ dayKey now → dayKey b.timestamp ≠ dayKey now →
        bucketKey w a.timestamp = bucketKey w b.timestamp → a = b) ∧
    ((removeDuplicateDates (some d) w now).filter
      (fun p => dayKey p.timestamp == dayKey now)).length ≤ 2 ∧
    (∀ a ∈ removeDuplicateDates (some d) w now,
      ∀ b ∈ removeDuplicateDates (some d) w now,
        dayKey a.timestamp = dayKey now → dayKey b.timestamp = dayKey now →
        isMidnightTs a.timestamp = true → isMidnightTs b.timestamp = true →
        a = b) ∧
    (∀ a ∈ removeDuplicateDates (some d) w now,
      ∀ b ∈ removeDuplicateDates (some d) w now,
        dayKey a.timestamp = dayKey now → dayKey b.timestamp = dayKey now →
        isMidnightTs a.timestamp = false → isMidnightTs b.timestamp = false →
        a = b) ∧
    (∀ a ∈ removeDuplicateDates (some d) w now,
      dayKey a.timestamp = dayKey now → isMidnightTs a.timestamp = false →
      ∀ q : DataPoint, some q ∈ d → q.timestamp ≠ 0 →
        dayKey q.timestamp = dayKey now → isMidnightTs q.timestamp = false →
        q.timestamp ≤ a.timestamp) := by
  have hc := recon_canonical (some d) w now
  refine ⟨recon_sorted (some d) w now, hc.bucketUnique, ?_, hc.midUnique,
    hc.intradayUnique, ?_⟩
  · by_cases hd : d = []
    · subst hd
      simp [removeDuplicateDates]
    · have hperm := (recon_perm_pool hd w now).filter
        (fun p => dayKey p.timestamp == dayKey now)
      rw [hperm.length_eq]
      exact reconPool_filter_today_le
  · intro a ha hat hamid q hq hq0 hqt hqmid
    by_cases hd : d = []
    · subst hd
      simp [removeDuplicateDates] at ha
    · have hperm := recon_perm_pool hd w now
      have hsel := reconPool_today_cases (hperm.mem_iff.1 ha) hat
      rcases hsel with hsel | hsel
      · exact absurd hamid (by simp [(todaySelect_fst_spec hsel).2])
      · have hqmem : q ∈ todayEntries now d := mem_todayEntries.2 ⟨hq, hq0, hqt⟩
        obtain ⟨v, hv, hle⟩ := todaySelect_snd_max _ q hqmem hqmid
        have hva : v = a := Option.some.inj (hv ▸ hsel ▸ rfl)
        exact hva ▸ hle

/-- C10: reconciliation silently discards null entries and entries with a
falsy (zero) timestamp — including a point at the Unix epoch instant itself —
and a null or empty input yields an empty output; every output point is one
of the input points and has a nonzero timestamp. -/
theorem removeDuplicateDates_discards (data : List (Option DataPoint))
    (w : Bool) (now : Nat) :
    removeDuplicateDates none w now = [] ∧
    removeDuplicateDates (some []) w now = [] ∧
    removeDuplicateDates (some [some ⟨0, 5⟩]) w now = [] ∧
    removeDuplicateDates (some [none, none]) w now = [] ∧
    (∀ p ∈ removeDuplicateDates (some data) w now,
      some p ∈ data ∧ p.timestamp ≠ 0) ∧
    (∀ p : DataPoint, p.timestamp = 0 →
      p ∉ removeDuplicateDates (some data) w now) := by
  have hmem : ∀ p ∈ removeDuplicateDates (some data) w now,
      some p ∈ data ∧ p.timestamp ≠ 0 := by
    intro p hp
    by_cases hd : data = []
    · subst hd
      simp [removeDuplicateDates] at hp
    · exact reconPool_mem_valid ((recon_perm_pool hd w now).mem_iff.1 hp)
  refine ⟨rfl, rfl, rfl, rfl, hmem, ?_⟩
  intro p hp0 hp
  exact (hmem p hp).2 hp0

/-- C3: when today's input points consist of a unique midnight snapshot `m`
and intra-day points whose latest is the unique `lt`, the reconciled output
keeps exactly `[m, lt]` among today's points — both retained, the midnight
point first, all other intra-day points discarded. -/
theorem removeDuplicateDates_today_pair (data : List (Option DataPoint))
    (w : Bool) (now : Nat) (m lt : DataPoint)
    (hmMem : some m ∈ data) (hltMem : some lt ∈ data)
    (hmT : dayKey m.timestamp = dayKey now)
    (hltT : dayKey lt.timestamp = dayKey now)
    (hmMid : isMidnightTs m.timestamp = true)
    (hltMid : isMidnightTs lt.timestamp = false)
    (hm0 : m.timestamp ≠ 0)
    (hMidU : ∀ p : DataPoint, some p ∈ data → p.timestamp ≠ 0 →
      dayKey p.timestamp = dayKey now → isMidnightTs p.timestamp = true →
      p = m)
    (hltMax : ∀ p : DataPoint, some p ∈ data → p.timestamp ≠ 0 →
      dayKey p.timestamp = dayKey now → isMidnightTs p.timestamp = false →
      p ≠ lt → p.timestamp < lt.timestamp) :
    (removeDuplicateDates (some data) w now).filter
      (fun p => dayKey p.timestamp == dayKey now) = [m, lt] := by
  have hd : data ≠ [] := List.ne_nil_of_mem hmMem
  have hlt0 : lt.timestamp ≠ 0 := by
    intro h
    exact absurd (h ▸ hltMid) (by decide)
  have hmToday : m ∈ todayEntries now data := mem_todayEntries.2 ⟨hmMem, hm0, hmT⟩
  have hltToday : lt ∈ todayEntries now data :=
    mem_todayEntries.2 ⟨hltMem, hlt0, hltT⟩
  have hsel1 : (todaySelect (todayEntries now data)).1 = some m := by
    refine todaySelect_fst_eq ?_ ⟨m, hmToday, hmMid⟩
    intro p hp hpmid
    have hp' := mem_todayEntries.1 hp
    exact hMidU p hp'.1 hp'.2.1 hp'.2.2 hpmid
  have hsel2 : (todaySelect (todayEntries now data)).2 = some lt := by
    obtain ⟨v, hv, hle⟩ := todaySelect_snd_max _ lt hltToday hltMid
    have hvspec := todaySelect_snd_spec hv
    have hv' := mem_todayEntries.1 hvspec.1
    by_cases hveq : v = lt
    · exact hveq ▸ hv
    · exact absurd (Nat.lt_of_lt_of_le
        (hltMax v hv'.1 hv'.2.1 hv'.2.2 hvspec.2 hveq) hle) (Nat.lt_irrefl _)
  have hpoolf : (reconPool w now data).filter
      (fun p => dayKey p.timestamp == dayKey now) = [m, lt] := by
    rw [reconPool, List.append_assoc, List.filter_append, List.filter_append]
    have hseen : ((dedupOthers w (otherEntries now data)).map Prod.snd).filter
        (fun p => dayKey p.timestamp == dayKey now) = [] := by
      rw [List.filter_eq_nil_iff]
      intro p hp
      obtain ⟨e, he, hpe⟩ := List.mem_map.1 hp
      have := (mem_otherEntries.1 (hpe ▸ dedupOthers_snd_mem _ e he)).2.2
      simpa using this
    rw [hseen, hsel1, hsel2]
    simp [hmT, hltT]
  have hperm : ((removeDuplicateDates (some data) w now).filter
      (fun p => dayKey p.timestamp == dayKey now)).Perm [m, lt] := by
    rw [← hpoolf]
    exact (recon_perm_pool hd w now).filter _
  refine sorted_eq_of_perm hperm
    (List.Sorted.filter _ (recon_sorted (some data) w now)) ?_
  have hmlt : m.timestamp < lt.timestamp :=
    ts_lt_of_midnight (hmT.trans hltT.symm) hmMid hltMid
  simp [byTimestampStrict, hmlt]

/-- C4: for a bucket `b` (UTC calendar day, or Sunday-aligned week start for
weekly series) whose input points all lie away from today's date, and which
holds at least two input points, reconciliation keeps exactly one point of
that bucket — one carrying the bucket's maximal timestamp — and discards the
other points of the bucket. -/
theorem removeDuplicateDates_bucket_dedup (data : List (Option DataPoint))
    (w : Bool) (now b : Nat)
    (hNonToday : ∀ p : DataPoint, some p ∈ data → p.timestamp ≠ 0 →
      bucketKey w p.timestamp = b → dayKey p.timestamp ≠ dayKey now)
    (hTwo : 2 ≤ ((validPoints data).filter
      (fun p => bucketKey w p.timestamp == b)).length) :
    ∃ keep : DataPoint, some keep ∈ data ∧ bucketKey w keep.timestamp = b ∧
      (∀ p : DataPoint, some p ∈ data → p.timestamp ≠ 0 →
        bucketKey w p.timestamp = b → p.timestamp ≤ keep.timestamp) ∧
      (removeDuplicateDates (some data) w now).filter
        (fun p => bucketKey w p.timestamp == b) = [keep] := by
  have hne : ∃ q : DataPoint, q ∈ (validPoints data).filter
      (fun p => bucketKey w p.timestamp == b) := by
    cases hfe : (validPoints data).filter (fun p => bucketKey w p.timestamp == b) with
    | nil => rw [hfe] at hTwo; simp at hTwo
    | cons q rest => exact ⟨q, hfe.symm ▸ List.mem_cons_self q rest⟩
  obtain ⟨q, hq⟩ := hne
  have hq' := List.mem_filter.1 hq
  have hqv := mem_validPoints.1 hq'.1
  have hqb : bucketKey w q.timestamp = b := by simpa using hq'.2
  have hd : data ≠ [] := List.ne_nil_of_mem hqv.1
  have hqother : q ∈ otherEntries now data :=
    mem_otherEntries.2 ⟨hqv.1, hqv.2, hNonToday q hqv.1 hqv.2 hqb⟩
  obtain ⟨e, he, hek, hle⟩ := @dedupOthers_max w _ q hqother
  have hkeep := dedupOthers_snd_mem _ e he
  have hkeepv := mem_otherEntries.1 hkeep
  have hkeepb : bucketKey w e.2.timestamp = b := by
    rw [dedupOthers_keyed _ e he, hek, hqb]
  refine ⟨e.2, hkeepv.1, hkeepb, ?_, ?_⟩
  · intro p hp hp0 hpb
    have hpother : p ∈ otherEntries now data :=
      mem_otherEntries.2 ⟨hp, hp0, hNonToday p hp hp0 hpb⟩
    obtain ⟨f, hf, hfk, hfle⟩ := @dedupOthers_max w _ p hpother
    have hfe : f = e := by
      have hkf : f.1 = b := by rw [hfk, hpb]
      have hke : e.1 = b := by rw [hek, hqb]
      have hv : f.2 = e.2 := by
        have h1 : (b, f.2) ∈ dedupOthers w (otherEntries now data) := by
          rw [← hkf]
          simpa using hf
        have h2 : (b, e.2) ∈ dedupOthers w (otherEntries now data) := by
          rw [← hke]
          simpa using he
        exact assoc_value_unique
          (dedupOthers_keys_nodup (otherEntries now data)) h1 h2
      calc f = (f.1, f.2) := rfl
        _ = (e.1, e.2) := by rw [hkf, hke, hv]
        _ = e := rfl
    exact hfe ▸ hfle
  · have hmemb : (b, e.2) ∈ dedupOthers w (otherEntries now data) := by
      have hke : e.1 = b := by rw [hek, hqb]
      rw [← hke]
      simpa using he
    have hpoolf : (reconPool w now data).filter
        (fun p => bucketKey w p.timestamp == b) = [e.2] := by
      rw [reconPool, List.append_assoc, List.filter_append]
      have hseen := dedupOthers_filter_bucket hmemb
      rw [hseen]
      have htoday0 : ((todaySelect (todayEntries now data)).1.toList ++
          (todaySelect (todayEntries now data)).2.toList).filter
          (fun p => bucketKey w p.timestamp == b) = [] := by
        rw [List.filter_eq_nil_iff]
        intro p hp
        rw [List.mem_append, Option.mem_toList, Option.mem_toList] at hp
        have hptoday : p ∈ todayEntries now data := by
          rcases hp with hp | hp
          · exact (todaySelect_fst_spec hp).1
          · exact (todaySelect_snd_spec hp).1
        have hpt := mem_todayEntries.1 hptoday
        simp only [beq_iff_eq]
        intro hpb
        exact hNonToday p hpt.1 hpt.2.1 hpb hpt.2.2
      rw [htoday0]
      simp
    have hperm : ((removeDuplicateDates (some data) w now).filter
        (fun p => bucketKey w p.timestamp == b)).Perm [e.2] := by
      rw [← hpoolf]
      exact (recon_perm_pool hd w now).filter _
    exact sorted_eq_of_perm hperm
      (List.Sorted.filter _ (recon_sorted (some data) w now)) (by simp)

/-- Witness for C3 at a concrete input: on day 20000 since the epoch the
input holds the midnight snapshot (count 1), a 01:00 snapshot (count 9) and a
14:00 snapshot (count 2); reconciliation keeps the midnight and the 14:00
points, in that order. -/
theorem removeDuplicateDates_today_pair_witness :
    (removeDuplicateDates (some [some ⟨1728003600000, 9⟩,
        some ⟨1728000000000, 1⟩, some ⟨1728050400000, 2⟩]) false
        1728060000000).filter
      (fun p => dayKey p.timestamp == dayKey 1728060000000) =
      [⟨1728000000000, 1⟩, ⟨1728050400000, 2⟩] := by
  apply removeDuplicateDates_today_pair
  · decide
  · decide
  · decide
  · decide
  · decide
  · decide
  · decide
  · intro p hp hp0 hpt hpmid
    simp only [List.mem_cons, List.not_mem_nil, or_false,
      Option.some.injEq] at hp
    rcases hp with rfl | rfl | rfl
    · exact absurd hpmid (by decide)
    · rfl
    · exact absurd hpmid (by decide)
  · intro p hp hp0 hpt hpmid hne
    simp only [List.mem_cons, List.not_mem_nil, or_false,
      Option.some.injEq] at hp
    rcases hp with rfl | rfl | rfl
    · decide
    · exact absurd hpmid (by decide)
    · exact absurd rfl hne

/-- Witness for C4 at a concrete input: two points on day 19998 (not today,
day 20000); reconciliation keeps exactly the later one. -/
theorem removeDuplicateDates_bucket_dedup_witness :
    ∃ keep : DataPoint,
      some keep ∈ [some (⟨1727900000000, 7⟩ : DataPoint),
        some ⟨1727910000000, 8⟩] ∧
      bucketKey false keep.timestamp = 19998 ∧
      (∀ p : DataPoint, some p ∈ [some (⟨1727900000000, 7⟩ : DataPoint),
          some ⟨1727910000000, 8⟩] → p.timestamp ≠ 0 →
        bucketKey false p.timestamp = 19998 →
        p.timestamp ≤ keep.timestamp) ∧
      (removeDuplicateDates (some [some ⟨1727900000000, 7⟩,
          some ⟨1727910000000, 8⟩]) false 1728060000000).filter
        (fun p => bucketKey false p.timestamp == 19998) = [keep] := by
  apply removeDuplicateDates_bucket_dedup
  · intro p hp hp0 hpb
    simp only [List.mem_cons, List.not_mem_nil, or_false,
      Option.some.injEq] at hp
    rcases hp with rfl | rfl
    · decide
    · decide
  · decide

/-- Day-indexed category breakdown from the Rune Realm payload
(`BreakdownByDay` values); any of the `Low`/`Medium`/`High` fields may be
missing. -/
structure RuneBreakdown where
  Low : Option Nat
  Medium : Option Nat
  High : Option Nat
deriving DecidableEq, Repr

/-- Point of the Rune Realm streak series built by `fetchRuneRealmStats`. -/
structure StreakPoint where
  timestamp : Nat
  day : Nat
  Low : Nat
  Medium : Nat
  High : Nat
deriving DecidableEq, Repr

/-- Canonical day-number conversion of `fetchRuneRealmStats`
(`src/unnamed/part_000`): `parseInt(day) * 86400000`. -/
def runeRealmDayToTimestamp (day : Nat) : Nat := day * 86400000

/-- Same conversion as written in `updateRuneRealmChart`
(`src/unnamed/part_001`): `dayNumber * 24 * 60 * 60 * 1000`. -/
def runeRealmChartTimestamp (dayNumber : Nat) : Nat :=
  dayNumber * (24 * 60 * 60 * 1000)

/-- One transformed entry of the Rune Realm mapping, with the category
defaulting to 0 that `fetchRuneRealmStats` applies to missing fields. -/
def runeRealmPoint (day : Nat) (b : RuneBreakdown) : StreakPoint :=
  { timestamp := runeRealmDayToTimestamp day
    day := day
    Low := b.Low.getD 0
    Medium := b.Medium.getD 0
    High := b.High.getD 0 }

/-- Pure core of `fetchRuneRealmStats`: convert every `(day, breakdowns)`
entry of the mapping and sort ascending by timestamp. -/
def fetchRuneRealmStreakData (entries : List (Nat × RuneBreakdown)) :
    List StreakPoint :=
  List.insertionSort (fun a b => a.timestamp ≤ b.timestamp)
    (entries.map fun e => runeRealmPoint e.1 e.2)

/-- One requested block-height period of the GraphQL batch fetch. -/
structure Period where
  startHeight : Nat
  endHeight : Nat
  endTime : Nat
deriving DecidableEq, Repr

/-- Fixed chunk size of `fetchProcessData` (`CHUNK_SIZE = 5`). -/
def CHUNK_SIZE : Nat := 5

/-- Fixed inter-chunk delay of `fetchProcessData` (`setTimeout(resolve, 100)`). -/
def interChunkDelayMs : Nat := 100

/-- Chunking loop of `fetchProcessData`: each iteration takes the next
`CHUNK_SIZE` periods and, after submitting them, sleeps the inter-chunk delay
exactly when `i + CHUNK_SIZE < periods.length`, i.e. when more periods
remain.  Each list element is one chunk paired with whether the delay runs
after it. -/
def fetchSchedule {α : Type} : List α → List (List α × Bool)
  | [] => []
  | a :: rest =>
    ((a :: rest).take CHUNK_SIZE, decide (CHUNK_SIZE < (a :: rest).length)) ::
      fetchSchedule ((a :: rest).drop CHUNK_SIZE)
termination_by l => l.length
decreasing_by
  simp only [List.length_drop, List.length_cons, CHUNK_SIZE]
  omega

/-- Outcome of one period's sub-request inside `fetchProcessData`: a
successful GraphQL count, a non-2xx response (which the code turns into a
thrown error), a payload with a GraphQL `errors` field, or a thrown
fetch/query-generation error. -/
inductive FetchOutcome where
  | ok (count : Nat)
  | httpError (status : Nat)
  | graphqlErrors
  | fetchFailure
deriving DecidableEq, Repr

/-- The point one period contributes: `{ timestamp: period.endTime, count }`
on success and `{ timestamp: period.endTime, count: 0 }` on any failure (the
error is logged and swallowed). -/
def periodResult (period : Period) (outcome : FetchOutcome) : DataPoint :=
  match outcome with
  | .ok c => ⟨period.endTime, c⟩
  | .httpError _ => ⟨period.endTime, 0⟩
  | .graphqlErrors => ⟨period.endTime, 0⟩
  | .fetchFailure => ⟨period.endTime, 0⟩

/-- Data flow of `fetchProcessData` as a function of each period's network
outcome: the chunks run in submission order and their results are
concatenated (`results.push(...chunkResults)`). -/
def fetchProcessData (periods : List Period)
    (outcome : Period → FetchOutcome) : List DataPoint :=
  ((fetchSchedule periods).map fun chunk =>
    chunk.1.map fun p => periodResult p (outcome p)).flatten

/-- Entry of the module-level `responseCache`:
`{ data, timestamp: Date.now() }`. -/
structure CacheEntry (α : Type) where
  data : α
  timestamp : Nat
deriving DecidableEq, Repr

/-- The read path used by every fetcher of `src/unnamed/part_000`:
`responseCache.has(key)` followed by the freshness test
`Date.now() - timestamp < TTL`; a miss or a stale entry yields `none`
(the caller refetches). -/
def cacheGet {α : Type} (cache : List (String × CacheEntry α)) (key : String)
    (ttl now : Nat) : Option α :=
  match assocLookup key cache with
  | none => none
  | some e => if now - e.timestamp < ttl then some e.data else none

/-- The write path `responseCache.set(key, { data, timestamp: Date.now() })`:
a `Map.set`, overwriting any existing entry for the key. -/
def cacheSet {α : Type} (cache : List (String × CacheEntry α)) (key : String)
    (value : α) (now : Nat) : List (String × CacheEntry α) :=
  assocSet key ⟨value, now⟩ cache

/-- TTL of the network-info cache entry (5 minutes). -/
def networkInfoTtl : Nat := 5 * 60 * 1000

/-- First-occurrence deduplication of JavaScript
`[...new Set(allTimestamps)]`, with the already-seen values accumulated. -/
def uniqueFirstAux (seen : List Nat) : List Nat → List Nat
  | [] => []
  | a :: rest =>
    if a ∈ seen then uniqueFirstAux seen rest
    else a :: uniqueFirstAux (a :: seen) rest

/-- JavaScript `[...new Set(l)]` on numeric timestamps. -/
def uniqueFirst (l : List Nat) : List Nat := uniqueFirstAux [] l

/-- The `{ labels, primary values, secondary values }` triple that
`updateStandardCombinedChart` writes into the chart. -/
structure AlignedSeries where
  labels : List Nat
  primaryValues : List (Option Nat)
  secondaryValues : List (Option Nat)
deriving DecidableEq, Repr

/-- Value of one series at one timeline instant:
`data.find(d => d.timestamp === timestamp)`, its count when found, `null`
otherwise. -/
def seriesValueAt (series : List DataPoint) (t : Nat) : Option Nat :=
  (series.find? fun p => p.timestamp == t).map DataPoint.count

/-- The `uniqueTimestamps` array of `updateStandardCombinedChart`: the
deduplicated union of both series' timestamps, sorted chronologically. -/
def alignLabels (primary secondary : List DataPoint) : List Nat :=
  List.insertionSort (fun a b => a ≤ b) (uniqueFirst
    (primary.map DataPoint.timestamp ++ secondary.map DataPoint.timestamp))

/-- Pure core of `updateStandardCombinedChart`: the shared timeline and both
aligned value arrays (each series' count where it has a point with exactly
that timestamp, `null` elsewhere). -/
def alignSeries (primary secondary : List DataPoint) : AlignedSeries :=
  { labels := alignLabels primary secondary
    primaryValues := (alignLabels primary secondary).map (seriesValueAt primary)
    secondaryValues :=
      (alignLabels primary secondary).map (seriesValueAt secondary) }

theorem assocLookup_assocSet_self {κ β : Type} [DecidableEq κ] (k : κ) (v : β)
    (l : List (κ × β)) : assocLookup k (assocSet k v l) = some v := by
  induction l with
  | nil => simp [assocSet, assocLookup]
  | cons hd rest ih =>
    obtain ⟨k', v'⟩ := hd
    by_cases hk : k' = k
    · simp [assocSet, hk, assocLookup]
    · simp [assocSet, hk, assocLookup, ih]

theorem assocLookup_assocSet_ne {κ β : Type} [DecidableEq κ] {k k' : κ}
    (hne : k' ≠ k) (v : β) (l : List (κ × β)) :
    assocLookup k' (assocSet k v l) = assocLookup k' l := by
  induction l with
  | nil => simp [assocSet, assocLookup, Ne.symm hne]
  | cons hd rest ih =>
    obtain ⟨k'', v''⟩ := hd
    by_cases hk : k'' = k
    · subst hk
      simp [assocSet, assocLookup, Ne.symm hne]
    · simp [assocSet, hk, assocLookup, ih]

/-- C8 (amended): the cache read returns absent exactly when the entry is
missing or its age `now - fetchedAt` has reached the key's TTL (age ≥ TTL);
any data it does return comes from an entry younger than the TTL; the cache
write overwrites the key's entry unconditionally and leaves every other key
unchanged. -/
theorem responseCache_spec {α : Type} (cache : List (String × CacheEntry α))
    (key : String) (ttl now : Nat) (value : α) :
    (cacheGet cache key ttl now = none ↔
      (assocLookup key cache = none ∨
        ∃ e : CacheEntry α, assocLookup key cache = some e ∧
          ttl ≤ now - e.timestamp)) ∧
    (∀ d : α, cacheGet cache key ttl now = some d →
      ∃ e : CacheEntry α, assocLookup key cache = some e ∧ d = e.data ∧
        now - e.timestamp < ttl) ∧
    assocLookup key (cacheSet cache key value now) =
      some ⟨value, now⟩ ∧
    (∀ k' : String, k' ≠ key →
      assocLookup k' (cacheSet cache key value now) = assocLookup k' cache) := by
  refine ⟨?_, ?_, ?_, ?_⟩
  · cases hl : assocLookup key cache with
    | none => simp [cacheGet, hl]
    | some e =>
      by_cases h : now - e.timestamp < ttl
      · simp only [cacheGet, hl, if_pos h]
        constructor
        · intro hc
          cases hc
        · rintro (hc | ⟨e', he', hle⟩)
          · cases hc
          · obtain rfl : e' = e := (Option.some.inj he').symm
            exact absurd h (Nat.not_lt_of_le hle)
      · simp only [cacheGet, hl, if_neg h]
        constructor
        · intro _
          exact Or.inr ⟨e, rfl, Nat.le_of_not_lt h⟩
        · intro _
          trivial
  · intro d hd
    cases hl : assocLookup key cache with
    | none => simp [cacheGet, hl] at hd
    | some e =>
      by_cases h : now - e.timestamp < ttl
      · simp only [cacheGet, hl, if_pos h, Option.some.injEq] at hd
        exact ⟨e, rfl, hd.symm, h⟩
      · simp [cacheGet, hl, h] at hd
  · simp only [cacheSet]
    exact assocLookup_assocSet_self key ⟨value, now⟩ cache
  · intro k' hne
    simp only [cacheSet]
    exact assocLookup_assocSet_ne hne ⟨value, now⟩ cache

/-- C8 counterexample, at the source's network-info entry (5-minute TTL): an
entry whose age equals the TTL exactly is present and its age does not
exceed the TTL, yet the read returns absent — so "absent exactly when missing
or age exceeds the TTL" is false as stated. -/
theorem responseCache_ttl_boundary_counterexample :
    ¬ ((cacheGet [("network-info", (⟨7, 0⟩ : CacheEntry Nat))] "network-info"
          networkInfoTtl networkInfoTtl = none) ↔
        (assocLookup "network-info"
            [("network-info", (⟨7, 0⟩ : CacheEntry Nat))] = none ∨
          networkInfoTtl - (0 : Nat) > networkInfoTtl)) := by
  decide

/-- C5 counterexample: the spec's arithmetic example is wrong — day number
20226 converts to `20226 * 86400000 = 1747526400000`, not `1748390400000`
(which is day 20236). -/
theorem runeRealm_conversion_counterexample :
    ¬ (runeRealmDayToTimestamp 20226 = 1748390400000) := by decide

/-- C5 (amended): both copies of the day-number adapter convert key `k` to
`k * 86400000` ms since the epoch — a bit-exact UTC midnight, whose day
number is `k` — every entry reaches the output with that timestamp, and in
particular 20226 converts to `1747526400000`. -/
theorem runeRealm_day_conversion (entries : List (Nat × RuneBreakdown)) :
    (∀ (day : Nat) (b : RuneBreakdown), (day, b) ∈ entries →
      runeRealmPoint day b ∈ fetchRuneRealmStreakData entries ∧
      (runeRealmPoint day b).timestamp = day * 86400000) ∧
    (∀ day : Nat, runeRealmChartTimestamp day = runeRealmDayToTimestamp day) ∧
    (∀ day : Nat, dayKey (runeRealmDayToTimestamp day) = day ∧
      runeRealmDayToTimestamp day % msPerDay = 0) ∧
    runeRealmDayToTimestamp 20226 = 1747526400000 := by
  refine ⟨?_, fun day => rfl, ?_, by decide⟩
  · intro day b hmem
    refine ⟨?_, rfl⟩
    rw [fetchRuneRealmStreakData, List.mem_insertionSort]
    exact List.mem_map.2 ⟨(day, b), hmem, rfl⟩
  · intro day
    constructor
    · simp [dayKey, runeRealmDayToTimestamp, msPerDay]
    · simp [runeRealmDayToTimestamp, msPerDay, Nat.mul_mod_left]

theorem fetchSchedule_nil {α : Type} : fetchSchedule ([] : List α) = [] := by
  simp [fetchSchedule]

theorem fetchSchedule_cons {α : Type} (l : List α) (hl : l ≠ []) :
    fetchSchedule l =
      (l.take CHUNK_SIZE, decide (CHUNK_SIZE < l.length)) ::
        fetchSchedule (l.drop CHUNK_SIZE) := by
  cases l with
  | nil => exact absurd rfl hl
  | cons a rest => rw [fetchSchedule]

theorem fetchSchedule_eq_nil_iff {α : Type} (l : List α) :
    fetchSchedule l = [] ↔ l = [] := by
  cases l with
  | nil => simp [fetchSchedule_nil]
  | cons a rest =>
    rw [fetchSchedule_cons _ (List.cons_ne_nil a rest)]
    simp

theorem fetchSchedule_flatten_aux {α : Type} (n : Nat) :
    ∀ l : List α, l.length ≤ n →
      ((fetchSchedule l).map Prod.fst).flatten = l := by
  induction n with
  | zero =>
    intro l hl
    have : l = [] := List.length_eq_zero.1 (Nat.le_zero.1 hl)
    subst this
    simp [fetchSchedule_nil]
  | succ n ih =>
    intro l hl
    cases l with
    | nil => simp [fetchSchedule_nil]
    | cons a rest =>
      rw [fetchSchedule_cons _ (List.cons_ne_nil a rest)]
      simp only [List.map_cons, List.flatten_cons]
      rw [ih ((a :: rest).drop CHUNK_SIZE)
        (by simp only [List.length_drop, List.length_cons, CHUNK_SIZE]
            simp only [List.length_cons] at hl
            omega)]
      exact List.take_append_drop ..

theorem fetchSchedule_flatten {α : Type} (l : List α) :
    ((fetchSchedule l).map Prod.fst).flatten = l :=
  fetchSchedule_flatten_aux l.length l (Nat.le_refl _)

theorem fetchSchedule_length_aux {α : Type} (n : Nat) :
    ∀ l : List α, l.length ≤ n →
      (fetchSchedule l).length = (l.length + CHUNK_SIZE - 1) / CHUNK_SIZE := by
  induction n with
  | zero =>
    intro l hl
    have : l = [] := List.length_eq_zero.1 (Nat.le_zero.1 hl)
    subst this
    simp [fetchSchedule_nil, CHUNK_SIZE]
  | succ n ih =>
    intro l hl
    cases l with
    | nil => simp [fetchSchedule_nil, CHUNK_SIZE]
    | cons a rest =>
      rw [fetchSchedule_cons _ (List.cons_ne_nil a rest)]
      simp only [List.length_cons]
      rw [ih ((a :: rest).drop CHUNK_SIZE)
        (by simp only [List.length_drop, List.length_cons, CHUNK_SIZE]
            simp only [List.length_cons] at hl
            omega)]
      simp only [List.length_drop, List.length_cons, CHUNK_SIZE]
      omega

theorem fetchSchedule_length {α : Type} (l : List α) :
    (fetchSchedule l).length = (l.length + CHUNK_SIZE - 1) / CHUNK_SIZE :=
  fetchSchedule_length_aux l.length l (Nat.le_refl _)

theorem fetchSchedule_chunk_bounds_aux {α : Type} (n : Nat) :
    ∀ l : List α, l.length ≤ n →
      ∀ c ∈ fetchSchedule l, c.1.length ≤ CHUNK_SIZE ∧ c.1 ≠ [] := by
  induction n with
  | zero =>
    intro l hl c hc
    have : l = [] := List.length_eq_zero.1 (Nat.le_zero.1 hl)
    subst this
    rw [fetchSchedule_nil] at hc
    simp at hc
  | succ n ih =>
    intro l hl c hc
    cases l with
    | nil =>
      rw [fetchSchedule_nil] at hc
      simp at hc
    | cons a rest =>
      rw [fetchSchedule_cons _ (List.cons_ne_nil a rest)] at hc
      rcases List.mem_cons.1 hc with h | h
      · subst h
        constructor
        · simp [List.length_take]
        · simp [CHUNK_SIZE]
      · exact ih ((a :: rest).drop CHUNK_SIZE)
          (by simp only [List.length_drop, List.length_cons, CHUNK_SIZE]
              simp only [List.length_cons] at hl
              omega) c h

theorem fetchSchedule_chunk_bounds {α : Type} (l : List α) :
    ∀ c ∈ fetchSchedule l, c.1.length ≤ CHUNK_SIZE ∧ c.1 ≠ [] :=
  fetchSchedule_chunk_bounds_aux l.length l (Nat.le_refl _)

theorem fetchSchedule_dropLast_aux {α : Type} (n : Nat) :
    ∀ l : List α, l.length ≤ n →
      ∀ c ∈ (fetchSchedule l).dropLast,
        c.1.length = CHUNK_SIZE ∧ c.2 = true := by
  induction n with
  | zero =>
    intro l hl c hc
    have : l = [] := List.length_eq_zero.1 (Nat.le_zero.1 hl)
    subst this
    rw [fetchSchedule_nil] at hc
    simp at hc
  | succ n ih =>
    intro l hl c hc
    cases l with
    | nil =>
      rw [fetchSchedule_nil] at hc
      simp at hc
    | cons a rest =>
      rw [fetchSchedule_cons _ (List.cons_ne_nil a rest)] at hc
      by_cases hdrop : (a :: rest).drop CHUNK_SIZE = []
      · rw [hdrop, fetchSchedule_nil] at hc
        simp at hc
      · have hlen : CHUNK_SIZE < (a :: rest).length := by
          by_contra hcon
          exact hdrop (List.drop_eq_nil_of_le (Nat.le_of_not_lt hcon))
        cases hsched : fetchSchedule ((a :: rest).drop CHUNK_SIZE) with
        | nil => exact absurd ((fetchSchedule_eq_nil_iff _).1 hsched) hdrop
        | cons c₀ cs =>
          rw [hsched, List.dropLast_cons₂] at hc
          rcases List.mem_cons.1 hc with h | h
          · subst h
            constructor
            · simp only [List.length_take]
              omega
            · simp only [List.length_cons] at hlen
              simpa using hlen
          · have := ih ((a :: rest).drop CHUNK_SIZE)
              (by simp only [List.length_drop, List.length_cons, CHUNK_SIZE]
                  simp only [List.length_cons] at hl
                  omega) c
            rw [hsched] at this
            exact this h

theorem fetchSchedule_dropLast {α : Type} (l : List α) :
    ∀ c ∈ (fetchSchedule l).dropLast,
      c.1.length = CHUNK_SIZE ∧ c.2 = true :=
  fetchSchedule_dropLast_aux l.length l (Nat.le_refl _)

theorem fetchSchedule_flags_aux {α : Type} (n : Nat) :
    ∀ l : List α, l.length ≤ n → l ≠ [] →
      (fetchSchedule l).map Prod.snd =
        List.replicate ((fetchSchedule l).length - 1) true ++ [false] := by
  induction n with
  | zero =>
    intro l hl hne
    exact absurd (List.length_eq_zero.1 (Nat.le_zero.1 hl)) hne
  | succ n ih =>
    intro l hl hne
    cases l with
    | nil => exact absurd rfl hne
    | cons a rest =>
      rw [fetchSchedule_cons _ (List.cons_ne_nil a rest)]
      by_cases hdrop : (a :: rest).drop CHUNK_SIZE = []
      · have hlen : ¬ CHUNK_SIZE < (a :: rest).length := by
          intro hcon
          rw [← List.length_eq_zero, List.length_drop] at hdrop
          omega
        rw [hdrop, fetchSchedule_nil]
        simp only [List.length_cons] at hlen
        simp [hlen]
      · have hlen : CHUNK_SIZE < (a :: rest).length := by
          by_contra hcon
          exact hdrop (List.drop_eq_nil_of_le (Nat.le_of_not_lt hcon))
        have hrec := ih ((a :: rest).drop CHUNK_SIZE)
          (by simp only [List.length_drop, List.length_cons, CHUNK_SIZE]
              simp only [List.length_cons] at hl
              omega) hdrop
        have hpos : 1 ≤ (fetchSchedule ((a :: rest).drop CHUNK_SIZE)).length := by
          by_contra hcon
          have : fetchSchedule ((a :: rest).drop CHUNK_SIZE) = [] :=
            List.length_eq_zero.1 (by omega)
          exact hdrop ((fetchSchedule_eq_nil_iff _).1 this)
        simp only [List.map_cons, hrec, List.length_cons, decide_eq_true hlen]
        rw [show (fetchSchedule ((a :: rest).drop CHUNK_SIZE)).length + 1 - 1 =
          ((fetchSchedule ((a :: rest).drop CHUNK_SIZE)).length - 1) + 1 by omega]
        rw [List.replicate_succ]
        simp only [List.length_cons] at hlen
        simpa using hlen

theorem fetchSchedule_flags {α : Type} (l : List α) (hne : l ≠ []) :
    (fetchSchedule l).map Prod.snd =
      List.replicate ((fetchSchedule l).length - 1) true ++ [false] :=
  fetchSchedule_flags_aux l.length l (Nat.le_refl _) hne

theorem filter_true_replicate (n : Nat) :
    (List.replicate n true ++ [false]).filter (fun b => b) =
      List.replicate n true := by
  induction n with
  | zero => simp
  | succ k ih => simp [List.replicate_succ, ih]

theorem filter_snd_length {α : Type} (s : List (α × Bool)) :
    (s.filter fun c => c.2).length =
      ((s.map Prod.snd).filter fun b => b).length := by
  induction s with
  | nil => rfl
  | cons c cs ih =>
    by_cases hc : c.2 <;> simp [List.filter_cons, hc, ih]

/-- C6: the chunking loop of `fetchProcessData` splits `n` periods into
`⌈n / 5⌉` chunks submitted in order — concatenating the chunks gives back the
periods, every chunk is nonempty with at most 5 periods, every chunk before
the last has exactly 5 and is followed by the 100 ms delay, the last chunk is
not followed by a delay, so the delay runs exactly (number of chunks − 1)
times; 12 periods yield chunks of sizes 5, 5, 2 with the delay exactly
twice. -/
theorem fetchProcessData_chunking (periods : List Period) :
    (fetchSchedule periods).length =
      (periods.length + CHUNK_SIZE - 1) / CHUNK_SIZE ∧
    ((fetchSchedule periods).map Prod.fst).flatten = periods ∧
    (∀ c ∈ fetchSchedule periods, c.1.length ≤ CHUNK_SIZE ∧ c.1 ≠ []) ∧
    (∀ c ∈ (fetchSchedule periods).dropLast,
      c.1.length = CHUNK_SIZE ∧ c.2 = true) ∧
    (periods ≠ [] → (fetchSchedule periods).map Prod.snd =
      List.replicate ((fetchSchedule periods).length - 1) true ++ [false]) ∧
    ((fetchSchedule periods).filter fun c => c.2).length =
      (fetchSchedule periods).length - 1 ∧
    (∀ l : List Period, l.length = 12 →
      (fetchSchedule l).map (fun c => (c.1.length, c.2)) =
        [(5, true), (5, true), (2, false)]) := by
  refine ⟨fetchSchedule_length periods, fetchSchedule_flatten periods,
    fetchSchedule_chunk_bounds periods, fetchSchedule_dropLast periods,
    fun hne => fetchSchedule_flags periods hne, ?_, ?_⟩
  · by_cases hne : periods = []
    · subst hne
      simp [fetchSchedule_nil]
    · rw [filter_snd_length, fetchSchedule_flags periods hne,
        filter_true_replicate, List.length_replicate]
  · intro l hlen
    have h1 : l ≠ [] := by
      intro h
      rw [h] at hlen
      simp at hlen
    have hd1len : (l.drop CHUNK_SIZE).length = 7 := by
      simp [List.length_drop, hlen, CHUNK_SIZE]
    have hd1 : l.drop CHUNK_SIZE ≠ [] := by
      intro h
      rw [h] at hd1len
      simp at hd1len
    have hd2len : ((l.drop CHUNK_SIZE).drop CHUNK_SIZE).length = 2 := by
      simp [List.length_drop, CHUNK_SIZE]
      omega
    have hd2 : (l.drop CHUNK_SIZE).drop CHUNK_SIZE ≠ [] := by
      intro h
      rw [h] at hd2len
      simp at hd2len
    have hd3 : (((l.drop CHUNK_SIZE).drop CHUNK_SIZE).drop CHUNK_SIZE) = [] := by
      rw [← List.length_eq_zero, List.length_drop, hd2len]
      simp [CHUNK_SIZE]
    rw [fetchSchedule_cons l h1, fetchSchedule_cons _ hd1,
      fetchSchedule_cons _ hd2, hd3, fetchSchedule_nil]
    simp [List.length_take, hlen, hd1len, hd2len, CHUNK_SIZE]

/-- C7: the batch fetch never aborts on a single period's failure — the
result equals one point per requested period in submission order, each
point's timestamp is that period's `endTime`, a successful period contributes
its GraphQL count, and any failing period (non-2xx response, thrown fetch
error, or GraphQL `errors` field) contributes count 0. -/
theorem fetchProcessData_isolates_failures (periods : List Period)
    (outcome : Period → FetchOutcome) :
    fetchProcessData periods outcome =
      periods.map (fun p => periodResult p (outcome p)) ∧
    (fetchProcessData periods outcome).length = periods.length ∧
    (∀ i : Nat, (fetchProcessData periods outcome)[i]? =
      (periods[i]?).map fun p => periodResult p (outcome p)) ∧
    (∀ p : Period, (periodResult p (outcome p)).timestamp = p.endTime) ∧
    (∀ (p : Period) (c : Nat), outcome p = FetchOutcome.ok c →
      periodResult p (outcome p) = ⟨p.endTime, c⟩) ∧
    (∀ p : Period, outcome p = FetchOutcome.graphqlErrors ∨
        outcome p = FetchOutcome.fetchFailure ∨
        (∃ status : Nat, outcome p = FetchOutcome.httpError status) →
      periodResult p (outcome p) = ⟨p.endTime, 0⟩) := by
  have hmain : fetchProcessData periods outcome =
      periods.map fun p => periodResult p (outcome p) := by
    rw [fetchProcessData]
    have hcomp : ((fetchSchedule periods).map fun chunk =>
        chunk.1.map fun p => periodResult p (outcome p)) =
        ((fetchSchedule periods).map Prod.fst).map
          (List.map fun p => periodResult p (outcome p)) := by
      rw [List.map_map]
      rfl
    rw [hcomp, ← List.map_flatten, fetchSchedule_flatten]
  refine ⟨hmain, by rw [hmain, List.length_map], ?_, ?_, ?_, ?_⟩
  · intro i
    rw [hmain, List.getElem?_map]
  · intro p
    cases h : outcome p <;> simp [periodResult, h]
  · intro p c h
    rw [h]
    rfl
  · intro p h
    rcases h with h | h | ⟨status, h⟩ <;> (rw [h]; rfl)

theorem mem_uniqueFirstAux (l : List Nat) :
    ∀ (seen : List Nat) (t : Nat),
      t ∈ uniqueFirstAux seen l ↔ (t ∈ l ∧ t ∉ seen) := by
  induction l with
  | nil => intro seen t; simp [uniqueFirstAux]
  | cons a rest ih =>
    intro seen t
    by_cases ha : a ∈ seen
    · rw [uniqueFirstAux, if_pos ha]
      constructor
      · intro h
        have h' := (ih seen t).1 h
        exact ⟨List.mem_cons_of_mem _ h'.1, h'.2⟩
      · rintro ⟨hmem, hns⟩
        rcases List.mem_cons.1 hmem with h | h
        · subst h
          exact absurd ha hns
        · exact (ih seen t).2 ⟨h, hns⟩
    · rw [uniqueFirstAux, if_neg ha]
      constructor
      · intro h
        rcases List.mem_cons.1 h with h | h
        · subst h
          exact ⟨List.mem_cons_self .., ha⟩
        · have h' := (ih (a :: seen) t).1 h
          exact ⟨List.mem_cons_of_mem _ h'.1,
            fun hc => h'.2 (List.mem_cons_of_mem _ hc)⟩
      · rintro ⟨hmem, hns⟩
        rcases List.mem_cons.1 hmem with h | h
        · subst h
          exact List.mem_cons_self ..
        · by_cases hta : t = a
          · subst hta
            exact List.mem_cons_self ..
          · refine List.mem_cons_of_mem _ ((ih (a :: seen) t).2 ⟨h, ?_⟩)
            intro hc
            rcases List.mem_cons.1 hc with hc | hc
            · exact hta hc
            · exact hns hc

theorem nodup_uniqueFirstAux (l : List Nat) :
    ∀ seen : List Nat, (uniqueFirstAux seen l).Nodup := by
  induction l with
  | nil => intro seen; simp [uniqueFirstAux]
  | cons a rest ih =>
    intro seen
    by_cases ha : a ∈ seen
    · rw [uniqueFirstAux, if_pos ha]
      exact ih seen
    · rw [uniqueFirstAux, if_neg ha]
      refine List.nodup_cons.2 ⟨?_, ih (a :: seen)⟩
      intro hc
      exact ((mem_uniqueFirstAux rest (a :: seen) a).1 hc).2
        (List.mem_cons_self ..)

theorem mem_alignLabels {A B : List DataPoint} {t : Nat} :
    t ∈ alignLabels A B ↔
      (∃ p ∈ A, p.timestamp = t) ∨ ∃ p ∈ B, p.timestamp = t := by
  rw [alignLabels, List.mem_insertionSort, uniqueFirst,
    mem_uniqueFirstAux]
  simp [List.mem_append, List.mem_map]

theorem alignLabels_sorted (A B : List DataPoint) :
    (alignLabels A B).Sorted (fun a b : Nat => a < b) := by
  have hsorted : (alignLabels A B).Sorted (fun a b : Nat => a ≤ b) :=
    List.sorted_insertionSort _ _
  have hnd : (alignLabels A B).Nodup := by
    rw [alignLabels]
    exact ((List.perm_insertionSort _ _).nodup_iff).2
      (nodup_uniqueFirstAux _ [])
  exact (hsorted.and hnd).imp fun h => Nat.lt_of_le_of_ne h.1 h.2

theorem find?_timestamp_unique {A : List DataPoint}
    (hA : (A.map DataPoint.timestamp).Nodup) {p : DataPoint} {t : Nat}
    (hp : p ∈ A) (ht : p.timestamp = t) :
    A.find? (fun q => q.timestamp == t) = some p := by
  induction A with
  | nil => simp at hp
  | cons x rest ih =>
    simp only [List.map, List.nodup_cons] at hA
    rcases List.mem_cons.1 hp with h | h
    · subst h
      rw [@List.find?_cons_of_pos DataPoint (fun q => q.timestamp == t) p rest
        (by simp [ht])]
    · have hxt : ¬ (x.timestamp == t) = true := by
        simp only [beq_iff_eq]
        intro hc
        exact hA.1 (hc ▸ ht ▸ List.mem_map_of_mem DataPoint.timestamp h)
      rw [@List.find?_cons_of_neg DataPoint (fun q => q.timestamp == t) x rest
        hxt]
      exact ih hA.2 h

/-- C9: series alignment produces as labels the sorted union of the two
filtered series' distinct timestamps; the value arrays have the same length
as the labels, and the entry at each timeline instant is the series' count
when the series holds a point with exactly that timestamp and `null`
otherwise — so `A = [{t1,5}]`, `B = [{t2,3}]` with `t1 < t2` yields labels
`[t1, t2]`, A-values `[5, null]`, B-values `[null, 3]`. -/
theorem updateStandardCombinedChart_alignment (A B : List DataPoint)
    (hA : (A.map DataPoint.timestamp).Nodup)
    (hB : (B.map DataPoint.timestamp).Nodup) :
    (alignSeries A B).labels.Sorted (fun a b : Nat => a < b) ∧
    (∀ t : Nat, t ∈ (alignSeries A B).labels ↔
      (∃ p ∈ A, p.timestamp = t) ∨ ∃ p ∈ B, p.timestamp = t) ∧
    (alignSeries A B).primaryValues.length =
      (alignSeries A B).labels.length ∧
    (alignSeries A B).secondaryValues.length =
      (alignSeries A B).labels.length ∧
    (∀ t : Nat,
      ((∀ p ∈ A, p.timestamp ≠ t) → seriesValueAt A t = none) ∧
      (∀ p ∈ A, p.timestamp = t → seriesValueAt A t = some p.count) ∧
      ((∀ p ∈ B, p.timestamp ≠ t) → seriesValueAt B t = none) ∧
      (∀ p ∈ B, p.timestamp = t → seriesValueAt B t = some p.count)) ∧
    (∀ i : Nat, (alignSeries A B).primaryValues[i]? =
      ((alignSeries A B).labels[i]?).map (seriesValueAt A)) ∧
    (∀ i : Nat, (alignSeries A B).secondaryValues[i]? =
      ((alignSeries A B).labels[i]?).map (seriesValueAt B)) ∧
    (∀ t1 t2 c1 c2 : Nat, t1 < t2 →
      alignSeries [⟨t1, c1⟩] [⟨t2, c2⟩] =
        ⟨[t1, t2], [some c1, none], [none, some c2]⟩) := by
  refine ⟨alignLabels_sorted A B, fun t => mem_alignLabels,
    by simp [alignSeries], by simp [alignSeries], ?_, ?_, ?_, ?_⟩
  · intro t
    refine ⟨?_, ?_, ?_, ?_⟩
    · intro hnone
      rw [seriesValueAt, List.find?_eq_none.2
        (fun q hq hqt => hnone q hq (by simpa using hqt))]
      rfl
    · intro p hp hpt
      rw [seriesValueAt, find?_timestamp_unique hA hp hpt]
      rfl
    · intro hnone
      rw [seriesValueAt, List.find?_eq_none.2
        (fun q hq hqt => hnone q hq (by simpa using hqt))]
      rfl
    · intro p hp hpt
      rw [seriesValueAt, find?_timestamp_unique hB hp hpt]
      rfl
  · intro i
    simp [alignSeries, List.getElem?_map]
  · intro i
    simp [alignSeries, List.getElem?_map]
  · intro t1 t2 c1 c2 h
    have hne : t1 ≠ t2 := Nat.ne_of_lt h
    have hlabels : alignLabels [⟨t1, c1⟩] [⟨t2, c2⟩] = [t1, t2] := by
      rw [alignLabels]
      simp only [List.map, List.map_nil, List.cons_append, List.nil_append]
      rw [uniqueFirst, uniqueFirstAux, if_neg (by simp)]
      rw [uniqueFirstAux, if_neg (by simp [Ne.symm hne])]
      rw [uniqueFirstAux]
      simp [List.insertionSort, List.orderedInsert, Nat.le_of_lt h]
    rw [alignSeries, hlabels]
    have hv1 : seriesValueAt [(⟨t1, c1⟩ : DataPoint)] t1 = some c1 := by
      simp [seriesValueAt]
    have hv2 : seriesValueAt [(⟨t1, c1⟩ : DataPoint)] t2 = none := by
      simp [seriesValueAt, hne]
    have hv3 : seriesValueAt [(⟨t2, c2⟩ : DataPoint)] t1 = none := by
      simp [seriesValueAt, Ne.symm hne]
    have hv4 : seriesValueAt [(⟨t2, c2⟩ : DataPoint)] t2 = some c2 := by
      simp [seriesValueAt]
    simp [hv1, hv2, hv3, hv4]

/-- Witness for C9 at the spec's example: `A = [{1000, 5}]`,
`B = [{2000, 3}]`. -/
theorem updateStandardCombinedChart_alignment_witness :
    (alignSeries [⟨1000, 5⟩] [⟨2000, 3⟩]).labels.Sorted
      (fun a b : Nat => a < b) ∧
    (∀ t : Nat, t ∈ (alignSeries [⟨1000, 5⟩] [⟨2000, 3⟩]).labels ↔
      (∃ p ∈ [(⟨1000, 5⟩ : DataPoint)], p.timestamp = t) ∨
        ∃ p ∈ [(⟨2000, 3⟩ : DataPoint)], p.timestamp = t) ∧
    (alignSeries [⟨1000, 5⟩] [⟨2000, 3⟩]).primaryValues.length =
      (alignSeries [⟨1000, 5⟩] [⟨2000, 3⟩]).labels.length ∧
    (alignSeries [⟨1000, 5⟩] [⟨2000, 3⟩]).secondaryValues.length =
      (alignSeries [⟨1000, 5⟩] [⟨2000, 3⟩]).labels.length ∧
    (∀ t : Nat,
      ((∀ p ∈ [(⟨1000, 5⟩ : DataPoint)], p.timestamp ≠ t) →
        seriesValueAt [⟨1000, 5⟩] t = none) ∧
      (∀ p ∈ [(⟨1000, 5⟩ : DataPoint)], p.timestamp = t →
        seriesValueAt [⟨1000, 5⟩] t = some p.count) ∧
      ((∀ p ∈ [(⟨2000, 3⟩ : DataPoint)], p.timestamp ≠ t) →
        seriesValueAt [⟨2000, 3⟩] t = none) ∧
      (∀ p ∈ [(⟨2000, 3⟩ : DataPoint)], p.timestamp = t →
        seriesValueAt [⟨2000, 3⟩] t = some p.count)) ∧
    (∀ i : Nat, (alignSeries [⟨1000, 5⟩] [⟨2000, 3⟩]).primaryValues[i]? =
      ((alignSeries [⟨1000, 5⟩] [⟨2000, 3⟩]).labels[i]?).map
        (seriesValueAt [⟨1000, 5⟩])) ∧
    (∀ i : Nat, (alignSeries [⟨1000, 5⟩] [⟨2000, 3⟩]).secondaryValues[i]? =
      ((alignSeries [⟨1000, 5⟩] [⟨2000, 3⟩]).labels[i]?).map
        (seriesValueAt [⟨2000, 3⟩])) ∧
    (∀ t1 t2 c1 c2 : Nat, t1 < t2 →
      alignSeries [⟨t1, c1⟩] [⟨t2, c2⟩] =
        ⟨[t1, t2], [some c1, none], [none, some c2]⟩) :=
  updateStandardCombinedChart_alignment [⟨1000, 5⟩] [⟨2000, 3⟩]
    (by decide) (by decide)

end EyeOfAO
